import Mathlib

/-!
Verification of the treelog incremental tree-prefix engine.

This file gives a shallow embedding, in Lean 4, of the core of the
`treelog` Rust crate:

* `src/style.rs`       — `StyleConfig`, the four glyph strings;
* `src/level.rs`       — `LevelPath` (a sequence of booleans) and
  `LevelPath::from_parent_chain`;
* `src/utils.rs`       — `compute_prefix` and `compute_second_line_prefix`;
* `src/renderer.rs`    — the prefix-building loop of `write_tree_element`;
* `src/tree.rs`        — the static `Tree` enum;
* `src/build/incremental.rs` — `IncrementalTree` with `add_node`,
  `add_leaf`, `add_leaf_lines`, `link_to_parent`, `get_prefix`,
  `build_tree`, `build_subtree`, `calculate_insert_position` and
  `calculate_insert_position_for_existing`;
* `src/indicatif.rs`   — the `TreeState::find_insert_position` routine of
  the progress-bar manager.

Rust `HashMap`s keyed by `usize` are embedded as association lists
(`List (Nat × α)`) with `insert`-replaces semantics; the source never
iterates over a map, so iteration order is irrelevant.  Loops of the
source that need not terminate on arbitrary (non-reachable) states are
embedded with an explicit fuel argument; the value `none` (or the
`fuelOut` constructor) models non-termination of the source loop, and
for every state reachable by the public API we prove the fuel chosen in
the definition is never exhausted (except in the genuinely diverging
self-parent corner case, which is analysed explicitly).
-/

namespace Treelog

/-- Embedding of `StyleConfig` (src/style.rs): four glyph strings. -/
structure StyleConfig where
  branch : String
  last : String
  vertical : String
  empty : String
deriving DecidableEq, Repr

/-- Embedding of `TreeStyle::unicode()` (src/style.rs), the `Default` style. -/
def StyleConfig.unicode : StyleConfig :=
  { branch := " ├─", last := " └─", vertical := " │ ", empty := "   " }

/-- Embedding of `TreeStyle::ascii()` (src/style.rs). -/
def StyleConfig.ascii : StyleConfig :=
  { branch := " +-", last := " `-", vertical := " | ", empty := "   " }

/-- Embedding of `StyleConfig::get_branch` (src/style.rs). -/
def StyleConfig.get_branch (s : StyleConfig) (is_last : Bool) : String :=
  if is_last then s.last else s.branch

/-- Embedding of `StyleConfig::get_vertical` (src/style.rs). -/
def StyleConfig.get_vertical (s : StyleConfig) : String := s.vertical

/-- Embedding of `StyleConfig::get_empty` (src/style.rs). -/
def StyleConfig.get_empty (s : StyleConfig) : String := s.empty

/-- A `LevelPath` (src/level.rs) is an ordered sequence of booleans, one
per ancestor level; we embed the `Vec<bool>` wrapper as a plain list. -/
abbrev LevelPath := List Bool

/-- The `for (pos, is_last) in level.iter().enumerate()` loop of
`compute_prefix` (src/utils.rs lines 51-69), with the running position
`pos`, the fixed bound `maxpos = level.len()` and the accumulated output
string made explicit. -/
def prefixLoop (style : StyleConfig) (maxpos : Nat) : Nat → List Bool → String → String
  | _, [], acc => acc
  | pos, is_last :: rest, acc =>
    let last_row : Bool := pos == maxpos - 1
    let glyph : String :=
      if is_last then
        if !last_row then style.get_empty else style.get_branch true
      else if !last_row then style.get_vertical
      else style.get_branch false
    prefixLoop style maxpos (pos + 1) rest (acc ++ glyph)

/-- Embedding of `compute_prefix` (src/utils.rs lines 51-69). -/
def compute_prefix (level : LevelPath) (style : StyleConfig) : String :=
  prefixLoop style level.length 0 level ""

/-- Embedding of `compute_second_line_prefix` (src/utils.rs lines 90-100):
a plain fold that appends `empty` for `true` elements and `vertical` for
`false` ones, for every element including the last. -/
def compute_second_line_prefix (level : LevelPath) (style : StyleConfig) : String :=
  level.foldl (fun acc is_last => acc ++ (if is_last then style.get_empty else style.get_vertical)) ""

/-- Specification-side characterisation of the first-line prefix, written
as structural recursion following the words of the spec: the element at
the LAST position contributes `style.last` when true and `style.branch`
when false; every EARLIER element contributes `style.empty` when true and
`style.vertical` when false; the empty path yields the empty string. -/
def prefixGlyphs : List Bool → StyleConfig → String
  | [], _ => ""
  | [b], style => if b then style.last else style.branch
  | b :: rest, style => (if b then style.empty else style.vertical) ++ prefixGlyphs rest style

/-- Specification-side characterisation of the continuation-line prefix:
EVERY element, the last included, contributes `style.empty` when true and
`style.vertical` when false. -/
def contGlyphs : List Bool → StyleConfig → String
  | [], _ => ""
  | b :: rest, style => (if b then style.empty else style.vertical) ++ contGlyphs rest style

/-- Embedding of the static `Tree` enum (src/tree.rs):
`Node(String, Vec<Tree>) | Leaf(Vec<String>)`. -/
inductive Tree where
  | node (label : String) (children : List Tree)
  | leaf (lines : List String)

/-- Embedding of `Tree::new_node` (src/tree.rs): a node with no children. -/
def Tree.new_node (label : String) : Tree := Tree.node label []

/-- Embedding of `Tree::new_leaf` (src/tree.rs): a leaf with a single line. -/
def Tree.new_leaf (line : String) : Tree := Tree.leaf [line]

/-- Embedding of `Tree::new_leaf_lines` (src/tree.rs). -/
def Tree.new_leaf_lines (lines : List String) : Tree := Tree.leaf lines

/-- Embedding of `RenderConfig` (src/config.rs).  The optional
`node_formatter` / `leaf_formatter` closures are embedded as optional
functions; the `colors` flag is carried along, and as in a build without
the `color` feature the colour wrapping is the identity. -/
structure RenderConfig where
  style : StyleConfig
  colors : Bool
  node_formatter : Option (String → String)
  leaf_formatter : Option (String → String)
  line_ending : String

/-- Embedding of `RenderConfig::format_node` (src/config.rs). -/
def RenderConfig.format_node (c : RenderConfig) (label : String) : String :=
  match c.node_formatter with
  | some f => f label
  | none => label

/-- Embedding of `RenderConfig::format_leaf` (src/config.rs). -/
def RenderConfig.format_leaf (c : RenderConfig) (line : String) : String :=
  match c.leaf_formatter with
  | some f => f line
  | none => line

/-- Embedding of Rust `str::trim_end` as used on `config.line_ending`
(src/renderer.rs): drop trailing whitespace characters. -/
def strTrimEnd (s : String) : String :=
  String.mk ((s.data.reverse.dropWhile Char.isWhitespace).reverse)

/-- The prefix-building loop at the top of `write_tree_element`
(src/renderer.rs lines 55-78): in one pass over `level` it writes the
first-line glyphs to the output and accumulates the `second_line` string
used for continuation lines of multi-line leaves. -/
def renderLevelLoop (style : StyleConfig) (maxpos : Nat) : Nat → List Bool → String × String → String × String
  | _, [], acc => acc
  | pos, is_last :: rest, (out, second_line) =>
    let last_row : Bool := pos == maxpos - 1
    if is_last then
      renderLevelLoop style maxpos (pos + 1) rest
        (out ++ (if !last_row then style.get_empty else style.get_branch true),
         second_line ++ style.get_empty)
    else
      renderLevelLoop style maxpos (pos + 1) rest
        (out ++ (if !last_row then style.get_vertical else style.get_branch false),
         second_line ++ style.get_vertical)

/-- The pair (first-line glyph sequence, `second_line` string) that
`write_tree_element` builds for an element at level path `level`. -/
def renderPrefixPair (style : StyleConfig) (level : LevelPath) : String × String :=
  renderLevelLoop style level.length 0 level ("", "")

/-- The per-line output of the `Tree::Leaf` arm of `write_tree_element`
(src/renderer.rs lines 103-130): the first line is written after the
already-written first-line prefix, every later line is prefixed by
`second_line` plus one space; each line is followed by the trimmed line
ending and the newline that `writeln!` appends. -/
def writeLeafLines (config : RenderConfig) (second_line : String) : List String → String
  | [] => ""
  | l0 :: rest =>
    (config.format_leaf l0 ++ strTrimEnd config.line_ending ++ "\n")
      ++ String.join (rest.map fun l =>
          second_line ++ " " ++ config.format_leaf l ++ strTrimEnd config.line_ending ++ "\n")

mutual

/-- Embedding of `write_tree_element` (src/renderer.rs lines 48-133),
returning the string it writes to the formatter. -/
def write_tree_element (config : RenderConfig) : Tree → LevelPath → String
  | Tree.node label children, level =>
    (renderPrefixPair config.style level).1
      ++ config.format_node label ++ config.line_ending
      ++ writeChildren config children level
  | Tree.leaf lines, level =>
    (renderPrefixPair config.style level).1
      ++ writeLeafLines config (renderPrefixPair config.style level).2 lines

/-- The `for child in children` loop of the `Tree::Node` arm: the child is
rendered at `level.with_child(is_last)` where `is_last` holds exactly for
the final child (`remaining == 1`). -/
def writeChildren (config : RenderConfig) : List Tree → LevelPath → String
  | [], _ => ""
  | [child], level => write_tree_element config child (level ++ [true])
  | child :: rest, level =>
      write_tree_element config child (level ++ [false]) ++ writeChildren config rest level

end

/-- Association list keyed by `Nat`, embedding `HashMap<usize, V>`. -/
abbrev AListM (α : Type) := List (Nat × α)

/-- Lookup, embedding `HashMap::get`. -/
def alookup {α : Type} : AListM α → Nat → Option α
  | [], _ => none
  | (k, v) :: rest, key => if k = key then some v else alookup rest key

/-- Insert-or-replace, embedding `HashMap::insert`. -/
def ainsert {α : Type} : AListM α → Nat → α → AListM α
  | [], key, v => [(key, v)]
  | (k, w) :: rest, key, v =>
      if k = key then (key, v) :: rest else (k, w) :: ainsert rest key v

/-- Embedding of `IncrementalTree` (src/build/incremental.rs). -/
structure IncrementalTree where
  trees : AListM Tree
  parent_to_children : AListM (List Nat)
  child_to_parent : AListM (Option Nat)
  next_id : Nat
  root_ids : List Nat
  style : StyleConfig

/-- Embedding of `IncrementalTree::with_style`. -/
def IncrementalTree.with_style (style : StyleConfig) : IncrementalTree :=
  { trees := [], parent_to_children := [], child_to_parent := [],
    next_id := 0, root_ids := [], style := style }

/-- Embedding of `IncrementalTree::new` (default unicode style). -/
def IncrementalTree.new : IncrementalTree :=
  IncrementalTree.with_style StyleConfig.unicode

/-- The children list of `p` as the loops of the source read it:
`parent_to_children.get(&p)`, defaulting to no children. -/
def childrenOf (t : IncrementalTree) (p : Nat) : List Nat :=
  (alookup t.parent_to_children p).getD []

/-- Embedding of `self.parent_to_children.entry(parent_id).or_default().push(id)`. -/
def pushChild (m : AListM (List Nat)) (p c : Nat) : AListM (List Nat) :=
  match alookup m p with
  | some l => ainsert m p (l ++ [c])
  | none => ainsert m p [c]

/-- Embedding of `IncrementalTree::link_to_parent` (src/build/incremental.rs
lines 86-106).  Note that it runs after the new item was already inserted
into `trees`, exactly as in the source. -/
def link_to_parent (t : IncrementalTree) (id : Nat) (parent_id : Option Nat) : IncrementalTree :=
  match parent_id with
  | some pid =>
    match alookup t.trees pid with
    | some (Tree.node _ _) =>
      { t with parent_to_children := pushChild t.parent_to_children pid id,
               child_to_parent := ainsert t.child_to_parent id (some pid) }
    | _ =>
      { t with root_ids := t.root_ids ++ [id],
               child_to_parent := ainsert t.child_to_parent id none }
  | none =>
    { t with root_ids := t.root_ids ++ [id],
             child_to_parent := ainsert t.child_to_parent id none }

/-- The shared first half of every `add_*` call: take the next unused
identifier, bump the counter (`self.next_id += 1`) and insert the new
item into `trees` — before `link_to_parent` runs, as in the source. -/
def bump (t : IncrementalTree) (item : Tree) : IncrementalTree :=
  { t with next_id := t.next_id + 1, trees := ainsert t.trees t.next_id item }

/-- Embedding of `IncrementalTree::add_node` (lines 128-137). -/
def add_node (t : IncrementalTree) (label : String) (parent_id : Option Nat) :
    Nat × IncrementalTree :=
  (t.next_id, link_to_parent (bump t (Tree.new_node label)) t.next_id parent_id)

/-- Embedding of `IncrementalTree::add_leaf`. -/
def add_leaf (t : IncrementalTree) (line : String) (parent_id : Option Nat) :
    Nat × IncrementalTree :=
  (t.next_id, link_to_parent (bump t (Tree.new_leaf line)) t.next_id parent_id)

/-- Embedding of `IncrementalTree::add_leaf_lines`. -/
def add_leaf_lines (t : IncrementalTree) (lines : List String) (parent_id : Option Nat) :
    Nat × IncrementalTree :=
  (t.next_id, link_to_parent (bump t (Tree.new_leaf_lines lines)) t.next_id parent_id)

/-- Embedding of `IncrementalTree::build_subtree` (lines 284-303).  The
source recurses through the `parent_to_children` map, which terminates on
every reachable state; the `fuel` argument makes that recursion
structural, and `none` on fuel exhaustion models non-termination. -/
def build_subtree (t : IncrementalTree) : Nat → Nat → Option Tree
  | 0, _ => none
  | fuel + 1, id =>
    match alookup t.trees id with
    | none => none
    | some (Tree.node label _) =>
        some (Tree.node label ((childrenOf t id).filterMap (build_subtree t fuel)))
    | some (Tree.leaf lines) => some (Tree.leaf lines)

/-- Embedding of `IncrementalTree::build_tree` (lines 224-246); depth fuel
`next_id + 1` dominates every ancestor chain of a reachable state. -/
def build_tree (t : IncrementalTree) : Option Tree :=
  if t.trees.isEmpty then none
  else
    match t.root_ids with
    | [] => none
    | [root] => build_subtree t (t.next_id + 1) root
    | roots => some (Tree.node ("") (roots.filterMap (build_subtree t (t.next_id + 1))))

/-- Result of the search loop of `calculate_insert_position_for_existing`:
either the position found, the `panic!` at the end of the loop, or fuel
exhaustion (modelling a non-terminating traversal, impossible on states
without a self-parented item). -/
inductive SearchOutcome where
  | found (i : Nat)
  | panicked
  | fuelOut
deriving DecidableEq, Repr

/-- Generic depth-fuelled preorder flattening: the list of identifiers of
the subtree rooted at `id`, each item immediately followed by its
children in order, recursively. -/
def subtreeF (childF : Nat → List Nat) : Nat → Nat → List Nat
  | 0, _ => []
  | fuel + 1, id => id :: ((childF id).map (subtreeF childF fuel)).flatten

/-- The preorder identifier list of the subtree of `id` in model `t`
(canonical fuel: `next_id + 1` dominates every chain of a reachable
state). -/
def subtreeIds (t : IncrementalTree) (id : Nat) : List Nat :=
  subtreeF (childrenOf t) (t.next_id + 1) id

/-- The depth-first document-order flattening of the whole model: roots in
root-set order, each item immediately followed by its descendants. -/
def dfsList (t : IncrementalTree) : List Nat :=
  (t.root_ids.map (subtreeIds t)).flatten

/-- The `while let Some(current_id) = stack.pop()` loop of
`calculate_insert_position_for_existing` (lines 264-281): the stack is
kept top-first, so popping the top and pushing the children reversed is
`children ++ stack`. -/
def cipeLoop (t : IncrementalTree) : Nat → List Nat → Nat → Nat → SearchOutcome
  | _, [], _, _ => SearchOutcome.panicked
  | 0, _ :: _, _, _ => SearchOutcome.fuelOut
  | fuel + 1, current :: stack, pos, id =>
      if current = id then SearchOutcome.found pos
      else cipeLoop t fuel (childrenOf t current ++ stack) (pos + 1) id

/-- Embedding of `IncrementalTree::calculate_insert_position_for_existing`
(lines 264-281); the initial stack is the root set in order, and the fuel
bound is one more than the full flattening the loop can visit. -/
def calculate_insert_position_for_existing (t : IncrementalTree) (id : Nat) : SearchOutcome :=
  cipeLoop t ((dfsList t).length + 1) t.root_ids 0 id

/-- The counting loop of `calculate_insert_position` (lines 454-474). -/
def cipLoop (t : IncrementalTree) : Nat → List Nat → Nat → Option Nat
  | _, [], count => some count
  | 0, _ :: _, _ => none
  | fuel + 1, current :: stack, count =>
      cipLoop t fuel (childrenOf t current ++ stack) (count + 1)

/-- Embedding of `IncrementalTree::calculate_insert_position` (lines
454-474): with a parent it counts the parent and all its current
descendants; with no parent it returns the number of root items. -/
def calculate_insert_position (t : IncrementalTree) (parent_id : Option Nat) : Option Nat :=
  match parent_id with
  | some pid => cipLoop t ((subtreeIds t pid).length + 1) [pid] 0
  | none => some t.root_ids.length

/-- The `while let Some(idx) = current` walk of
`LevelPath::from_parent_chain` (src/level.rs): push `is_last_child idx`
and step to the parent until an item with no parent is reached.  `none`
on fuel exhaustion models a non-terminating parent chain. -/
def fpcLoop (get_parent : Nat → Option Nat) (is_last_child : Nat → Bool) :
    Nat → Nat → List Bool → Option (List Bool)
  | 0, _, _ => none
  | fuel + 1, idx, path =>
    match get_parent idx with
    | some parent_idx => fpcLoop get_parent is_last_child fuel parent_idx (path ++ [is_last_child idx])
    | none => some path

/-- Embedding of `LevelPath::from_parent_chain` (src/level.rs): the pushed
flags are reversed at the end. -/
def from_parent_chain (fuel : Nat) (get_parent : Nat → Option Nat) (is_last_child : Nat → Bool)
    (item_index : Nat) : Option (List Bool) :=
  (fpcLoop get_parent is_last_child fuel item_index []).map List.reverse

/-- Embedding of `IncrementalTree::get_prefix` (lines 341-370).  The outer
`Option` layer models termination of the ancestor walk (`none` = the
source loop never terminates); the inner layer is the source's return
value.  The fuel `next_id` dominates every strictly-decreasing parent
chain. -/
def get_prefix (t : IncrementalTree) (id : Nat) : Option (Option String) :=
  if alookup t.child_to_parent id = some none then some none
  else if (alookup t.trees id).isNone then some none
  else
    (from_parent_chain t.next_id
      (fun idx => (alookup t.child_to_parent idx).bind (fun parent => parent))
      (fun idx =>
        match alookup t.child_to_parent idx with
        | some (some parent_id) =>
          match alookup t.parent_to_children parent_id with
          | some children => !children.isEmpty && (children.getLast? == some idx)
          | none => false
        | _ => false)
      id).map (fun level_path => some ( compute_prefix level_path t.style))

/-- Embedding of `IncrementalTree::len`. -/
def IncrementalTree.len (t : IncrementalTree) : Nat := t.trees.length

/-- Embedding of `IncrementalTree::is_empty`. -/
def IncrementalTree.isEmptyModel (t : IncrementalTree) : Bool := t.trees.isEmpty

/-! ## Reachable states: sequences of `add_*` calls -/

/-- One public mutating call on the model. -/
inductive Op where
  | node (label : String) (parent : Option Nat)
  | leaf (line : String) (parent : Option Nat)
  | leafLines (lines : List String) (parent : Option Nat)

/-- Apply one call, discarding the returned identifier. -/
def applyOp (t : IncrementalTree) : Op → IncrementalTree
  | Op.node label parent => (add_node t label parent).2
  | Op.leaf line parent => (add_leaf t line parent).2
  | Op.leafLines lines parent => (add_leaf_lines t lines parent).2

/-- The model state after a sequence of `add_*` calls on a fresh model. -/
def buildOps (style : StyleConfig) (ops : List Op) : IncrementalTree :=
  ops.foldl applyOp (IncrementalTree.with_style style)


/-- Whether the model currently stores a `Tree::Node` under this value. -/
def isNodeOpt : Option Tree → Bool
  | some (Tree.node _ _) => true
  | _ => false

/-- Whether identifier `p` currently resolves to a `Tree::Node` in the
model — the test of `link_to_parent`. -/
def isNodeAt (t : IncrementalTree) (p : Nat) : Bool := isNodeOpt (alookup t.trees p)

/-! ## The progress-bar tree state (src/indicatif.rs) -/

/-- Embedding of `ProgressBarItem` (src/indicatif.rs); the wrapped
`ProgressBar` handle carries no model state and is omitted. -/
structure PBItem where
  id : Nat
  parent : Option Nat
deriving DecidableEq, Repr

/-- Embedding of the model-relevant state of `TreeState`
(src/indicatif.rs): the display-ordered item list, the id-to-position
map and the parent-to-children map.  The cached `tree_prefixes` and
`base_messages` maps only mirror derived strings and are omitted. -/
structure TreeStateM where
  items : List PBItem
  index_to_position : AListM Nat
  parent_to_children : AListM (List Nat)
  style : StyleConfig

/-- The children list of `p` as `TreeState` reads it. -/
def childrenOfTS (ts : TreeStateM) (p : Nat) : List Nat :=
  (alookup ts.parent_to_children p).getD []

/-- The preorder identifier list of the subtree of `id` in a `TreeState`
(canonical fuel: one more than the item count). -/
def subtreeTS (ts : TreeStateM) (id : Nat) : List Nat :=
  subtreeF (childrenOfTS ts) (ts.items.length + 1) id

/-- The descendant-scanning loop of `TreeState::find_insert_position`
(src/indicatif.rs lines 449-481): pop an id, fold the positions of its
positioned children into the running maximum and push them; the stack is
kept top-first, so the source's in-order `push` is a reversed prepend. -/
def fipLoop (ts : TreeStateM) : Nat → List Nat → Nat → Option Nat
  | _, [], best => some best
  | 0, _ :: _, _ => none
  | fuel + 1, current :: stack, best =>
    let ds := childrenOfTS ts current
    let present := ds.filter (fun d => (alookup ts.index_to_position d).isSome)
    let best2 := present.foldl (fun b d => max b ((alookup ts.index_to_position d).getD 0)) best
    fipLoop ts fuel (present.reverse ++ stack) best2

/-- Embedding of `TreeState::find_insert_position` (src/indicatif.rs lines
449-481).  `none` models the `.unwrap()` panic on a last child without a
position, or a non-terminating scan; neither occurs on consistent
states. -/
def find_insert_position (ts : TreeStateM) (item : PBItem) : Option Nat :=
  match item.parent with
  | none => some ts.items.length
  | some parent_id =>
    match alookup ts.index_to_position parent_id with
    | none => some ts.items.length
    | some parent_pos =>
      match alookup ts.parent_to_children parent_id with
      | none => some (parent_pos + 1)
      | some children =>
        if children.isEmpty then some (parent_pos + 1)
        else
          match children.getLast? with
          | none => some (parent_pos + 1)
          | some last_child_id =>
            match alookup ts.index_to_position last_child_id with
            | none => none
            | some last_child_pos =>
              (fipLoop ts ((subtreeTS ts last_child_id).length + 1) [last_child_id] last_child_pos).map
                (fun last_descendant_pos => last_descendant_pos + 1)

/-! ## Concrete example states -/

/-- Model after `add_node("root", None); add_leaf("a", Some(root))`. -/
def exRootA : IncrementalTree :=
  buildOps StyleConfig.unicode [Op.node ("root") none, Op.leaf ("a") (some 0)]

/-- Model after adding a second leaf child `b` under the same root. -/
def exRootAB : IncrementalTree :=
  buildOps StyleConfig.unicode
    [Op.node ("root") none, Op.leaf ("a") (some 0), Op.leaf ("b") (some 0)]

/-- Model with root `r` whose only child is the node `a` (the flattening
is `[r, a]`, so `a` occupies position 1). -/
def exChain2 : IncrementalTree :=
  buildOps StyleConfig.unicode [Op.node ("r") none, Op.node ("a") (some 0)]

/-- The spec's insertion-position example: root `r`, child `c1`, grandchild
`gc1`. -/
def exRCG : IncrementalTree :=
  buildOps StyleConfig.unicode
    [Op.node ("r") none, Op.node ("c1") (some 0), Op.leaf ("gc1") (some 1)]

/-- The self-parent corner state: on an empty model, `add_node("x", Some(0))`
names the not-yet-assigned identifier 0 as parent; since the new node is
inserted into `trees` before `link_to_parent` checks the parent, the item
is linked as its own parent and the root set stays empty. -/
def exSelfParent : IncrementalTree :=
  buildOps StyleConfig.unicode [Op.node ("x") (some 0)]

/-- The materialise round-trip state: `root{leafA, node{leafB}}` built
with three child-adding calls under correct parent ids. -/
def exRound : IncrementalTree :=
  buildOps StyleConfig.unicode
    [Op.node ("root") none, Op.leaf ("leafA") (some 0),
     Op.node ("node") (some 0), Op.leaf ("leafB") (some 2)]

/-- The progress-bar analogue of the spec's insertion-position example:
display list `[r, c1, gc1]` in depth-first order with consistent
positions and buckets. -/
def exTS : TreeStateM :=
  { items := [⟨0, none⟩, ⟨1, some 0⟩, ⟨2, some 1⟩],
    index_to_position := [(0, 0), (1, 1), (2, 2)],
    parent_to_children := [(0, [1]), (1, [2])],
    style := StyleConfig.unicode }

/-! ## Structural invariants of reachable model states -/

/-- Invariants holding after EVERY sequence of `add_*` calls, the
self-parent corner case included (hence `parent_le`, not strict):
the item and parent tables are keyed by exactly the assigned
identifiers, parents are Nodes and at most as new as their children,
the child-parent and parent-children maps mirror each other, buckets
and the root set are strictly increasing (= creation order), and the
root set is exactly the set of parentless identifiers. -/
structure WF0 (t : IncrementalTree) : Prop where
  trees_keys : ∀ id, (alookup t.trees id).isSome ↔ id < t.next_id
  ctp_keys : ∀ id, (alookup t.child_to_parent id).isSome ↔ id < t.next_id
  parent_le : ∀ id p, alookup t.child_to_parent id = some (some p) → p ≤ id
  parent_node : ∀ id p, alookup t.child_to_parent id = some (some p) → isNodeAt t p = true
  child_mem : ∀ id p, alookup t.child_to_parent id = some (some p) → id ∈ childrenOf t p
  bucket_parent : ∀ p c, c ∈ childrenOf t p → alookup t.child_to_parent c = some (some p)
  bucket_chain : ∀ p, List.Chain' (· < ·) (childrenOf t p)
  ptc_node : ∀ p, alookup t.parent_to_children p ≠ none → isNodeAt t p = true
  root_iff : ∀ id, id ∈ t.root_ids ↔ alookup t.child_to_parent id = some none
  root_chain : List.Chain' (· < ·) t.root_ids

/-- A state with no self-parented item — equivalently, a state built
without ever passing the not-yet-assigned fresh identifier as the parent
of an `add_node` call.  On such states every parent is strictly older
than its child and all traversals terminate. -/
def NoSelfLoop (t : IncrementalTree) : Prop :=
  ∀ pr ∈ t.child_to_parent, pr.2 ≠ some pr.1

instance noSelfLoopDecidable (t : IncrementalTree) : Decidable (NoSelfLoop t) :=
  inferInstanceAs (Decidable (∀ pr ∈ t.child_to_parent, pr.2 ≠ some pr.1))

/-- The state produced by an `add_*` call whose `link_to_parent` took the
root-fallback branch: spelled out field by field. -/
def fallbackState (t : IncrementalTree) (item : Tree) : IncrementalTree :=
  { trees := ainsert t.trees t.next_id item,
    parent_to_children := t.parent_to_children,
    child_to_parent := ainsert t.child_to_parent t.next_id none,
    next_id := t.next_id + 1,
    root_ids := t.root_ids ++ [t.next_id],
    style := t.style }

/-- The state produced by an `add_*` call whose `link_to_parent` attached
the new item under the Node `p`: spelled out field by field. -/
def attachState (t : IncrementalTree) (item : Tree) (p : Nat) : IncrementalTree :=
  { trees := ainsert t.trees t.next_id item,
    parent_to_children := pushChild t.parent_to_children p t.next_id,
    child_to_parent := ainsert t.child_to_parent t.next_id (some p),
    next_id := t.next_id + 1,
    root_ids := t.root_ids,
    style := t.style }

/-- The running position of an identifier as the descendant loop of
`find_insert_position` reads it (`.get(&desc_id)` with the position
defaulting to 0 for the impossible absent case). -/
def posOf (ts : TreeStateM) (d : Nat) : Nat := (alookup ts.index_to_position d).getD 0

/-- The proper-descendant preorder list of an item in a `TreeState`: the
concatenated subtrees of its children. -/
def properTS (ts : TreeStateM) (s : Nat) : List Nat :=
  ((childrenOfTS ts s).map (subtreeTS ts)).flatten

/-- The maximum of a list of naturals (0 for the empty list). -/
def natSup (l : List Nat) : Nat := l.foldr max 0

/-- Consistency of a progress-bar tree state: the display list is the
depth-first flattening of the parent forest (roots in display order),
`index_to_position` maps the id at display index `i` to `i`, and the
parent-to-children buckets point at younger, in-range, displayed ids.
These hold for every state the manager builds, since it inserts each new
bar at its depth-first position and keeps the position map in step. -/
def TSHyps (ts : TreeStateM) : Prop :=
  (ts.items.map PBItem.id
      = (((ts.items.filter (fun it => it.parent = none)).map PBItem.id).map (subtreeTS ts)).flatten) ∧
  (∀ pr ∈ (ts.items.map PBItem.id).enum, alookup ts.index_to_position pr.2 = some pr.1) ∧
  (∀ pr ∈ ts.parent_to_children, ∀ c ∈ pr.2, pr.1 < c) ∧
  (∀ pr ∈ ts.parent_to_children, ∀ c ∈ pr.2, c < ts.items.length) ∧
  (∀ pr ∈ ts.parent_to_children, ∀ c ∈ pr.2, c ∈ ts.items.map PBItem.id)

instance tsHypsDecidable (ts : TreeStateM) : Decidable (TSHyps ts) :=
  inferInstanceAs (Decidable (_ ∧ _))

/-! ## Theorems -/

@[simp] lemma alookup_nil {α : Type} (key : Nat) : alookup ([] : AListM α) key = none := rfl

@[simp] lemma alookup_ainsert_self {α : Type} (m : AListM α) (k : Nat) (v : α) :
    alookup (ainsert m k v) k = some v := by
  induction m with
  | nil => simp [ainsert, alookup]
  | cons kv rest ih =>
    obtain ⟨k0, v0⟩ := kv
    by_cases h : k0 = k <;> simp [ainsert, alookup, h, ih]

@[simp] lemma alookup_ainsert_ne {α : Type} (m : AListM α) (k key : Nat) (v : α)
    (h : k ≠ key) : alookup (ainsert m k v) key = alookup m key := by
  induction m with
  | nil => simp [ainsert, alookup, h]
  | cons kv rest ih =>
    obtain ⟨k0, v0⟩ := kv
    by_cases h0 : k0 = k
    · subst h0
      simp [ainsert, alookup, h]
    · by_cases h1 : k0 = key <;> simp [ainsert, alookup, h0, h1, ih, Ne.symm h]

lemma mem_of_alookup_eq_some {α : Type} {m : AListM α} {k : Nat} {v : α}
    (h : alookup m k = some v) : (k, v) ∈ m := by
  induction m with
  | nil => simp [alookup] at h
  | cons kv rest ih =>
    obtain ⟨k0, v0⟩ := kv
    by_cases h0 : k0 = k
    · subst h0
      simp [alookup] at h
      simp [h]
    · simp [alookup, h0] at h
      exact List.mem_cons_of_mem _ (ih h)

lemma alookup_isEmpty {α : Type} {m : AListM α} (h : m.isEmpty) : ∀ k, alookup m k = none := by
  cases m with
  | nil => intro k; rfl
  | cons kv rest => simp [List.isEmpty] at h

/-! ## The incremental tree model (src/build/incremental.rs) -/

lemma prefixLoop_eq (style : StyleConfig) :
    ∀ (level : List Bool) (pos maxpos : Nat) (acc : String),
      maxpos = pos + level.length →
      prefixLoop style maxpos pos level acc = acc ++ prefixGlyphs level style := by
  intro level
  induction level with
  | nil =>
    intro pos maxpos acc _
    simp [prefixLoop, prefixGlyphs]
  | cons b rest ih =>
    intro pos maxpos acc hmax
    match rest with
    | [] =>
      have hrow : (pos == maxpos - 1) = true := by
        simp only [List.length_cons, List.length_nil] at hmax
        simp [hmax]
      cases b <;>
        simp [prefixLoop, prefixGlyphs, hrow, StyleConfig.get_branch]
    | c :: rest2 =>
      have hrow : (pos == maxpos - 1) = false := by
        have hne : pos ≠ maxpos - 1 := by
          simp only [List.length_cons] at hmax
          omega
        exact beq_eq_false_iff_ne.mpr hne
      have hmax2 : maxpos = (pos + 1) + (c :: rest2).length := by
        simp only [List.length_cons] at hmax ⊢
        omega
      have step : prefixLoop style maxpos pos (b :: c :: rest2) acc
          = prefixLoop style maxpos (pos + 1) (c :: rest2)
              (acc ++ (if b then (if !(pos == maxpos - 1) then style.get_empty else style.get_branch true)
                       else if !(pos == maxpos - 1) then style.get_vertical else style.get_branch false)) := rfl
      rw [step, ih (pos + 1) maxpos _ hmax2]
      cases b <;>
        simp [prefixGlyphs, hrow, StyleConfig.get_empty, StyleConfig.get_vertical, String.append_assoc]

lemma foldl_contGlyphs (style : StyleConfig) :
    ∀ (level : List Bool) (acc : String),
      level.foldl (fun acc is_last => acc ++ (if is_last then style.get_empty else style.get_vertical)) acc
        = acc ++ contGlyphs level style := by
  intro level
  induction level with
  | nil => intro acc; simp [contGlyphs]
  | cons b rest ih =>
    intro acc
    rw [List.foldl_cons, ih]
    cases b <;>
      simp [contGlyphs, StyleConfig.get_empty, StyleConfig.get_vertical, String.append_assoc]

/-- C3: for every level path and style, `compute_prefix` returns the
in-order concatenation of one glyph per path element, where the element
at the last position contributes `style.last` if it is true and
`style.branch` if it is false, and every earlier element contributes
`style.empty` if true and `style.vertical` if false; the empty path
yields the empty string. -/
theorem c3_first_line_glyphs :
    ∀ (level : LevelPath) (style : StyleConfig),
      compute_prefix level style = prefixGlyphs level style ∧
      compute_prefix [] style = "" := by
  intro level style
  constructor
  · unfold compute_prefix
    have h := prefixLoop_eq style level 0 level.length "" (by omega)
    simpa using h
  · rfl

/-- C9: for every level path and style, `compute_second_line_prefix`
concatenates, in order, `style.empty` for every true element and
`style.vertical` for every false element — every element including the
last — and the empty path yields the empty string. -/
theorem c9_continuation_glyphs :
    ∀ (level : LevelPath) (style : StyleConfig),
      compute_second_line_prefix level style = contGlyphs level style ∧
      compute_second_line_prefix [] style = "" := by
  intro level style
  constructor
  · unfold compute_second_line_prefix
    have h := foldl_contGlyphs style level ""
    simpa using h
  · rfl

lemma renderLevelLoop_eq (style : StyleConfig) :
    ∀ (level : List Bool) (pos maxpos : Nat) (out second_line : String),
      renderLevelLoop style maxpos pos level (out, second_line)
        = (prefixLoop style maxpos pos level out,
           level.foldl (fun acc is_last => acc ++ (if is_last then style.get_empty else style.get_vertical)) second_line) := by
  intro level
  induction level with
  | nil =>
    intro pos maxpos out second_line
    simp [renderLevelLoop, prefixLoop]
  | cons b rest ih =>
    intro pos maxpos out second_line
    cases b <;> simp [renderLevelLoop, prefixLoop, ih, StyleConfig.get_branch]

lemma renderPrefixPair_eq (style : StyleConfig) (level : LevelPath) :
    renderPrefixPair style level = ( compute_prefix level style, compute_second_line_prefix level style) := by
  unfold renderPrefixPair compute_prefix compute_second_line_prefix
  exact renderLevelLoop_eq style level 0 level.length "" ""

/-- C10: the static renderer agrees with the standalone prefix functions —
the glyph pair that `write_tree_element` builds while rendering an element
at level path `L` with style `S` is exactly
(`compute_prefix L S`, `compute_second_line_prefix L S`), and the output
of `write_tree_element` for any tree element at `L` begins with
`compute_prefix L S`. -/
theorem c10_renderer_agrees_with_standalone :
    (∀ (style : StyleConfig) (level : LevelPath),
        renderPrefixPair style level
          = ( compute_prefix level style, compute_second_line_prefix level style)) ∧
    (∀ (config : RenderConfig) (tree : Tree) (level : LevelPath),
        ∃ rest, write_tree_element config tree level = compute_prefix level config.style ++ rest) := by
  constructor
  · exact renderPrefixPair_eq
  · intro config tree level
    cases tree with
    | node label children =>
      refine ⟨config.format_node label ++ config.line_ending ++ writeChildren config children level, ?_⟩
      rw [write_tree_element, renderPrefixPair_eq]
      simp [String.append_assoc]
    | leaf lines =>
      refine ⟨writeLeafLines config (renderPrefixPair config.style level).2 lines, ?_⟩
      rw [write_tree_element, renderPrefixPair_eq]

lemma link_to_parent_fallback (t : IncrementalTree) (id : Nat) {parent : Option Nat}
    (h : parent = none ∨ ∃ p, parent = some p ∧ isNodeAt t p = false) :
    link_to_parent t id parent
      = { t with root_ids := t.root_ids ++ [id],
                 child_to_parent := ainsert t.child_to_parent id none } := by
  rcases h with h | ⟨p, hp, hnode⟩
  · subst h
    rfl
  · subst hp
    cases htr : alookup t.trees p with
    | none => simp [link_to_parent, htr]
    | some tr =>
      cases tr with
      | node lab ch =>
        rw [isNodeAt, htr] at hnode
        simp [isNodeOpt] at hnode
      | leaf lines => simp [link_to_parent, htr]

lemma link_to_parent_attach (t : IncrementalTree) (id p : Nat)
    (h : isNodeAt t p = true) :
    link_to_parent t id (some p)
      = { t with parent_to_children := pushChild t.parent_to_children p id,
                 child_to_parent := ainsert t.child_to_parent id (some p) } := by
  cases htr : alookup t.trees p with
  | none =>
    rw [isNodeAt, htr] at h
    simp [isNodeOpt] at h
  | some tr =>
    cases tr with
    | node lab ch => simp [link_to_parent, htr]
    | leaf lines =>
      rw [isNodeAt, htr] at h
      simp [isNodeOpt] at h

lemma isNodeAt_bump_ne (t : IncrementalTree) (item : Tree) {p : Nat} (h : p ≠ t.next_id) :
    isNodeAt (bump t item) p = isNodeAt t p := by
  unfold isNodeAt bump
  simp only []
  rw [alookup_ainsert_ne _ _ _ _ (Ne.symm h)]

lemma isNodeAt_bump_self (t : IncrementalTree) (item : Tree) :
    isNodeAt (bump t item) t.next_id = isNodeOpt (some item) := by
  unfold isNodeAt bump
  simp only []
  rw [alookup_ainsert_self]

@[simp] lemma bump_root_ids (t : IncrementalTree) (item : Tree) :
    (bump t item).root_ids = t.root_ids := rfl

@[simp] lemma bump_next_id (t : IncrementalTree) (item : Tree) :
    (bump t item).next_id = t.next_id + 1 := rfl

@[simp] lemma bump_child_to_parent (t : IncrementalTree) (item : Tree) :
    (bump t item).child_to_parent = t.child_to_parent := rfl

@[simp] lemma bump_parent_to_children (t : IncrementalTree) (item : Tree) :
    (bump t item).parent_to_children = t.parent_to_children := rfl

@[simp] lemma bump_trees (t : IncrementalTree) (item : Tree) :
    (bump t item).trees = ainsert t.trees t.next_id item := rfl

/-- C2: starting from an empty incremental model, after `add_node(root, None)`
and adding `a` as the only child of `root`, `get_prefix(a)` is the
last-child glyph; after adding a second child `b` under the same root,
`get_prefix(a)` queried again yields the branch (non-last) glyph and
`get_prefix(b)` the last-child glyph — last-child status is recomputed
from the current children state at query time. -/
theorem c2_retroactive_last_child :
    get_prefix exRootA 1 = some (some StyleConfig.unicode.last) ∧
    get_prefix exRootAB 1 = some (some StyleConfig.unicode.branch) ∧
    get_prefix exRootAB 2 = some (some StyleConfig.unicode.last) :=
  ⟨rfl, rfl, rfl⟩

/-- C6 counterexample: on an empty model, `add_node("x", Some(0))` passes a
parent identifier that does not exist in the model, yet the new item is
NOT recorded as a root — because the new node is inserted into the item
table before the parent check, it is linked as its own parent and child.
This refutes the claim that every nonexistent parent reference falls back
to root placement. -/
theorem c6_counterexample :
    (add_node IncrementalTree.new ("x") (some 0)).1 = 0 ∧
    (add_node IncrementalTree.new ("x") (some 0)).2.root_ids = [] ∧
    alookup (add_node IncrementalTree.new ("x") (some 0)).2.child_to_parent 0 = some (some 0) ∧
    childrenOf (add_node IncrementalTree.new ("x") (some 0)).2 0 = [0] := by
  decide

/-- C6 (amended): for every `add_node`/`add_leaf`/`add_leaf_lines` call
whose parent argument is `None`, or names an identifier that does not
resolve to a Node in the model — EXCEPT, for `add_node`, the
not-yet-assigned fresh identifier `next_id` — the new item is recorded as
a root (appended to the root set, with parent `None` in the child-parent
map) and the call returns the fresh identifier; no error or panic occurs
(the operations are total).  When `add_node` is called with parent equal
to `next_id`, the new node is instead linked as its own parent and child
and the root set is unchanged. -/
theorem c6_bad_parent_falls_back_to_root :
    (∀ (t : IncrementalTree) (label : String) (parent : Option Nat),
      (parent = none ∨ ∃ p, parent = some p ∧ p ≠ t.next_id ∧ isNodeAt t p = false) →
      (add_node t label parent).1 = t.next_id ∧
      (add_node t label parent).2.root_ids = t.root_ids ++ [t.next_id] ∧
      alookup (add_node t label parent).2.child_to_parent t.next_id = some none) ∧
    (∀ (t : IncrementalTree) (line : String) (parent : Option Nat),
      (parent = none ∨ ∃ p, parent = some p ∧ (p = t.next_id ∨ isNodeAt t p = false)) →
      (add_leaf t line parent).1 = t.next_id ∧
      (add_leaf t line parent).2.root_ids = t.root_ids ++ [t.next_id] ∧
      alookup (add_leaf t line parent).2.child_to_parent t.next_id = some none) ∧
    (∀ (t : IncrementalTree) (lines : List String) (parent : Option Nat),
      (parent = none ∨ ∃ p, parent = some p ∧ (p = t.next_id ∨ isNodeAt t p = false)) →
      (add_leaf_lines t lines parent).1 = t.next_id ∧
      (add_leaf_lines t lines parent).2.root_ids = t.root_ids ++ [t.next_id] ∧
      alookup (add_leaf_lines t lines parent).2.child_to_parent t.next_id = some none) ∧
    (∀ (t : IncrementalTree) (label : String),
      (add_node t label (some t.next_id)).2.root_ids = t.root_ids ∧
      alookup (add_node t label (some t.next_id)).2.child_to_parent t.next_id
        = some (some t.next_id) ∧
      t.next_id ∈ childrenOf (add_node t label (some t.next_id)).2 t.next_id) := by
  refine ⟨?_, ?_, ?_, ?_⟩
  · intro t label parent h
    have hfall : parent = none ∨ ∃ p, parent = some p ∧
        isNodeAt (bump t (Tree.new_node label)) p = false := by
      rcases h with h | ⟨p, hp, hne, hnode⟩
      · exact Or.inl h
      · exact Or.inr ⟨p, hp, by rw [isNodeAt_bump_ne t _ hne]; exact hnode⟩
    unfold add_node
    rw [link_to_parent_fallback _ _ hfall]
    exact ⟨rfl, rfl, by simp⟩
  · intro t line parent h
    have hfall : parent = none ∨ ∃ p, parent = some p ∧
        isNodeAt (bump t (Tree.new_leaf line)) p = false := by
      rcases h with h | ⟨p, hp, hcase⟩
      · exact Or.inl h
      · refine Or.inr ⟨p, hp, ?_⟩
        by_cases hpn : p = t.next_id
        · subst hpn
          rw [isNodeAt_bump_self]
          simp [Tree.new_leaf, isNodeOpt]
        · rw [isNodeAt_bump_ne t _ hpn]
          rcases hcase with hcase | hcase
          · exact absurd hcase hpn
          · exact hcase
    unfold add_leaf
    rw [link_to_parent_fallback _ _ hfall]
    exact ⟨rfl, rfl, by simp⟩
  · intro t lines parent h
    have hfall : parent = none ∨ ∃ p, parent = some p ∧
        isNodeAt (bump t (Tree.new_leaf_lines lines)) p = false := by
      rcases h with h | ⟨p, hp, hcase⟩
      · exact Or.inl h
      · refine Or.inr ⟨p, hp, ?_⟩
        by_cases hpn : p = t.next_id
        · subst hpn
          rw [isNodeAt_bump_self]
          simp [Tree.new_leaf_lines, isNodeOpt]
        · rw [isNodeAt_bump_ne t _ hpn]
          rcases hcase with hcase | hcase
          · exact absurd hcase hpn
          · exact hcase
    unfold add_leaf_lines
    rw [link_to_parent_fallback _ _ hfall]
    exact ⟨rfl, rfl, by simp⟩
  · intro t label
    have hnode : isNodeAt (bump t (Tree.new_node label)) t.next_id = true := by
      rw [isNodeAt_bump_self]
      simp [Tree.new_node, isNodeOpt]
    unfold add_node
    rw [link_to_parent_attach _ _ _ hnode]
    refine ⟨rfl, by simp, ?_⟩
    show t.next_id ∈ (alookup (pushChild (bump t (Tree.new_node label)).parent_to_children t.next_id t.next_id) t.next_id).getD []
    unfold pushChild
    cases hl : alookup (bump t (Tree.new_node label)).parent_to_children t.next_id with
    | none => simp
    | some l => simp

/-- C1 counterexample: in the model `r` with single child `a` (flattening
`[r, a]`, so `a` occupies position 1 and has no children),
`calculate_insert_position(Some(a))` returns 1, whereas the claimed value
— `a`'s position in the flattening, plus 1, plus the number of existing
descendants of `a`'s children — is 2. -/
theorem c1_counterexample :
    calculate_insert_position exChain2 (some 1) = some 1 ∧
    (dfsList exChain2).indexOf 1 + 1 +
      ((childrenOf exChain2 1).map (fun c => (subtreeIds exChain2 c).length)).sum = 2 := by
  decide

lemma alookup_pushChild_self (m : AListM (List Nat)) (p c : Nat) :
    alookup (pushChild m p c) p = some ((alookup m p).getD [] ++ [c]) := by
  unfold pushChild
  cases h : alookup m p with
  | none => simp [h]
  | some l => simp [h]

lemma alookup_pushChild_ne (m : AListM (List Nat)) (p c q : Nat) (h : p ≠ q) :
    alookup (pushChild m p c) q = alookup m q := by
  unfold pushChild
  cases h0 : alookup m p with
  | none => rw [alookup_ainsert_ne _ _ _ _ h]
  | some l => rw [alookup_ainsert_ne _ _ _ _ h]

lemma WF0.ctp_lt {t : IncrementalTree} (h : WF0 t) {id : Nat} {v : Option Nat}
    (hl : alookup t.child_to_parent id = some v) : id < t.next_id := by
  have := (h.ctp_keys id).mp (by rw [hl]; rfl)
  exact this

lemma WF0.root_lt {t : IncrementalTree} (h : WF0 t) {id : Nat}
    (hr : id ∈ t.root_ids) : id < t.next_id :=
  h.ctp_lt ((h.root_iff id).mp hr)

lemma WF0.bucket_lt {t : IncrementalTree} (h : WF0 t) {p c : Nat}
    (hc : c ∈ childrenOf t p) : c < t.next_id :=
  h.ctp_lt (h.bucket_parent p c hc)

lemma WF0.not_mem_root {t : IncrementalTree} (h : WF0 t) :
    t.next_id ∉ t.root_ids := by
  intro hmem
  exact absurd (h.root_lt hmem) (lt_irrefl _)

lemma isNodeAt_lt {t : IncrementalTree} (h : WF0 t) {p : Nat}
    (hn : isNodeAt t p = true) : p < t.next_id := by
  rw [isNodeAt] at hn
  cases hl : alookup t.trees p with
  | none => rw [hl] at hn; simp [isNodeOpt] at hn
  | some tr => exact (h.trees_keys p).mp (by rw [hl]; rfl)

@[simp] lemma fallbackState_trees (t : IncrementalTree) (item : Tree) :
    (fallbackState t item).trees = ainsert t.trees t.next_id item := rfl

@[simp] lemma fallbackState_ctp (t : IncrementalTree) (item : Tree) :
    (fallbackState t item).child_to_parent = ainsert t.child_to_parent t.next_id none := rfl

@[simp] lemma fallbackState_roots (t : IncrementalTree) (item : Tree) :
    (fallbackState t item).root_ids = t.root_ids ++ [t.next_id] := rfl

@[simp] lemma fallbackState_next (t : IncrementalTree) (item : Tree) :
    (fallbackState t item).next_id = t.next_id + 1 := rfl

@[simp] lemma fallbackState_children (t : IncrementalTree) (item : Tree) (q : Nat) :
    childrenOf (fallbackState t item) q = childrenOf t q := rfl

@[simp] lemma fallbackState_ptc (t : IncrementalTree) (item : Tree) :
    (fallbackState t item).parent_to_children = t.parent_to_children := rfl

lemma fallbackState_isNodeAt (t : IncrementalTree) (item : Tree) (q : Nat) :
    isNodeAt (fallbackState t item) q = isNodeAt (bump t item) q := rfl

@[simp] lemma attachState_trees (t : IncrementalTree) (item : Tree) (p : Nat) :
    (attachState t item p).trees = ainsert t.trees t.next_id item := rfl

@[simp] lemma attachState_ctp (t : IncrementalTree) (item : Tree) (p : Nat) :
    (attachState t item p).child_to_parent = ainsert t.child_to_parent t.next_id (some p) := rfl

@[simp] lemma attachState_roots (t : IncrementalTree) (item : Tree) (p : Nat) :
    (attachState t item p).root_ids = t.root_ids := rfl

@[simp] lemma attachState_next (t : IncrementalTree) (item : Tree) (p : Nat) :
    (attachState t item p).next_id = t.next_id + 1 := rfl

@[simp] lemma attachState_ptc (t : IncrementalTree) (item : Tree) (p : Nat) :
    (attachState t item p).parent_to_children = pushChild t.parent_to_children p t.next_id := rfl

lemma attachState_isNodeAt (t : IncrementalTree) (item : Tree) (p q : Nat) :
    isNodeAt (attachState t item p) q = isNodeAt (bump t item) q := rfl

lemma attachState_children_self (t : IncrementalTree) (item : Tree) (p : Nat) :
    childrenOf (attachState t item p) p = childrenOf t p ++ [t.next_id] := by
  unfold childrenOf
  rw [attachState_ptc, alookup_pushChild_self]
  rfl

lemma attachState_children_ne (t : IncrementalTree) (item : Tree) (p q : Nat) (h : p ≠ q) :
    childrenOf (attachState t item p) q = childrenOf t q := by
  unfold childrenOf
  rw [attachState_ptc, alookup_pushChild_ne _ _ _ _ h]

lemma link_bump_fallback (t : IncrementalTree) (item : Tree) {parent : Option Nat}
    (hcase : parent = none ∨ ∃ p, parent = some p ∧ isNodeAt (bump t item) p = false) :
    link_to_parent (bump t item) t.next_id parent = fallbackState t item := by
  rw [link_to_parent_fallback _ _ hcase]
  rfl

lemma link_bump_attach (t : IncrementalTree) (item : Tree) {p : Nat}
    (hn : isNodeAt (bump t item) p = true) :
    link_to_parent (bump t item) t.next_id (some p) = attachState t item p := by
  rw [link_to_parent_attach _ _ _ hn]
  rfl

lemma alookup_new_ctp_self (t : IncrementalTree) (v : Option Nat) :
    alookup (ainsert t.child_to_parent t.next_id v) t.next_id = some v :=
  alookup_ainsert_self _ _ _

lemma alookup_new_ctp_old (t : IncrementalTree) (v : Option Nat) {id : Nat} (h : id ≠ t.next_id) :
    alookup (ainsert t.child_to_parent t.next_id v) id = alookup t.child_to_parent id :=
  alookup_ainsert_ne _ _ _ _ (fun hc => h hc.symm)

lemma WF0_fallbackState {t : IncrementalTree} (item : Tree) (h : WF0 t) :
    WF0 (fallbackState t item) := by
  constructor
  · intro id
    rw [fallbackState_trees, fallbackState_next]
    by_cases hid : id = t.next_id
    · subst hid
      rw [alookup_ainsert_self]
      simp
    · rw [alookup_ainsert_ne _ _ _ _ (fun hc => hid hc.symm), h.trees_keys id]
      omega
  · intro id
    rw [fallbackState_ctp, fallbackState_next]
    by_cases hid : id = t.next_id
    · subst hid
      rw [alookup_new_ctp_self]
      simp
    · rw [alookup_new_ctp_old t _ hid, h.ctp_keys id]
      omega
  · intro id p hl
    rw [fallbackState_ctp] at hl
    by_cases hid : id = t.next_id
    · subst hid
      rw [alookup_new_ctp_self] at hl
      simp at hl
    · rw [alookup_new_ctp_old t _ hid] at hl
      exact h.parent_le id p hl
  · intro id p hl
    rw [fallbackState_ctp] at hl
    by_cases hid : id = t.next_id
    · subst hid
      rw [alookup_new_ctp_self] at hl
      simp at hl
    · rw [alookup_new_ctp_old t _ hid] at hl
      have hn := h.parent_node id p hl
      have hplt : p < t.next_id := isNodeAt_lt h hn
      rw [fallbackState_isNodeAt, isNodeAt_bump_ne t item (by omega)]
      exact hn
  · intro id p hl
    rw [fallbackState_ctp] at hl
    rw [fallbackState_children]
    by_cases hid : id = t.next_id
    · subst hid
      rw [alookup_new_ctp_self] at hl
      simp at hl
    · rw [alookup_new_ctp_old t _ hid] at hl
      exact h.child_mem id p hl
  · intro p c hc
    rw [fallbackState_children] at hc
    have hclt : c < t.next_id := h.bucket_lt hc
    rw [fallbackState_ctp, alookup_new_ctp_old t _ (by omega)]
    exact h.bucket_parent p c hc
  · intro p
    rw [fallbackState_children]
    exact h.bucket_chain p
  · intro p hp
    rw [fallbackState_ptc] at hp
    have hn := h.ptc_node p hp
    have hplt : p < t.next_id := isNodeAt_lt h hn
    rw [fallbackState_isNodeAt, isNodeAt_bump_ne t item (by omega)]
    exact hn
  · intro id
    rw [fallbackState_roots, fallbackState_ctp]
    constructor
    · intro hmem
      rcases List.mem_append.mp hmem with hmem | hmem
      · have hlt : id < t.next_id := h.root_lt hmem
        rw [alookup_new_ctp_old t _ (by omega)]
        exact (h.root_iff id).mp hmem
      · have hid : id = t.next_id := by simpa using hmem
        subst hid
        exact alookup_new_ctp_self t none
    · intro hl
      by_cases hid : id = t.next_id
      · subst hid
        simp
      · rw [alookup_new_ctp_old t _ hid] at hl
        exact List.mem_append.mpr (Or.inl ((h.root_iff id).mpr hl))
  · rw [fallbackState_roots]
    rw [List.chain'_append]
    refine ⟨h.root_chain, List.chain'_singleton _, ?_⟩
    intro x hx y hy
    have hxm : x ∈ t.root_ids := List.mem_of_mem_getLast? hx
    have hxl : x < t.next_id := h.root_lt hxm
    have hyv : t.next_id = y := by simpa using hy
    omega

lemma WF0_attachState {t : IncrementalTree} (item : Tree) (p : Nat) (h : WF0 t)
    (hn : isNodeAt (bump t item) p = true) :
    WF0 (attachState t item p) := by
  have hple : p ≤ t.next_id := by
    rw [isNodeAt] at hn
    by_cases hp : p = t.next_id
    · omega
    · have hsome : (alookup (bump t item).trees p).isSome := by
        cases hl : alookup (bump t item).trees p with
        | none => rw [hl] at hn; simp [isNodeOpt] at hn
        | some tr => rfl
      rw [bump_trees, alookup_ainsert_ne _ _ _ _ (fun hc => hp hc.symm)] at hsome
      have := (h.trees_keys p).mp hsome
      omega
  constructor
  · intro id
    rw [attachState_trees, attachState_next]
    by_cases hid : id = t.next_id
    · subst hid
      rw [alookup_ainsert_self]
      simp
    · rw [alookup_ainsert_ne _ _ _ _ (fun hc => hid hc.symm), h.trees_keys id]
      omega
  · intro id
    rw [attachState_ctp, attachState_next]
    by_cases hid : id = t.next_id
    · subst hid
      rw [alookup_new_ctp_self]
      simp
    · rw [alookup_new_ctp_old t _ hid, h.ctp_keys id]
      omega
  · intro id q hl
    rw [attachState_ctp] at hl
    by_cases hid : id = t.next_id
    · subst hid
      rw [alookup_new_ctp_self] at hl
      have hq : q = p := by
        have := hl.symm
        simpa using this
      subst hq
      exact hple
    · rw [alookup_new_ctp_old t _ hid] at hl
      exact h.parent_le id q hl
  · intro id q hl
    rw [attachState_ctp] at hl
    rw [attachState_isNodeAt]
    by_cases hid : id = t.next_id
    · subst hid
      rw [alookup_new_ctp_self] at hl
      have hq : q = p := by
        have := hl.symm
        simpa using this
      subst hq
      exact hn
    · rw [alookup_new_ctp_old t _ hid] at hl
      have hq := h.parent_node id q hl
      have hqlt : q < t.next_id := isNodeAt_lt h hq
      rw [isNodeAt_bump_ne t item (by omega)]
      exact hq
  · intro id q hl
    rw [attachState_ctp] at hl
    by_cases hid : id = t.next_id
    · subst hid
      rw [alookup_new_ctp_self] at hl
      have hq : q = p := by
        have := hl.symm
        simpa using this
      subst hq
      rw [attachState_children_self]
      simp
    · rw [alookup_new_ctp_old t _ hid] at hl
      have hm := h.child_mem id q hl
      by_cases hqp : q = p
      · subst hqp
        rw [attachState_children_self]
        exact List.mem_append.mpr (Or.inl hm)
      · rw [attachState_children_ne t item _ _ (fun hc => hqp hc.symm)]
        exact hm
  · intro q c hc
    rw [attachState_ctp]
    by_cases hqp : q = p
    · subst hqp
      rw [attachState_children_self] at hc
      rcases List.mem_append.mp hc with hc | hc
      · have hclt : c < t.next_id := h.bucket_lt hc
        rw [alookup_new_ctp_old t _ (by omega)]
        exact h.bucket_parent q c hc
      · have hcv : c = t.next_id := by simpa using hc
        subst hcv
        exact alookup_new_ctp_self t (some q)
    · rw [attachState_children_ne t item _ _ (fun hc0 => hqp hc0.symm)] at hc
      have hclt : c < t.next_id := h.bucket_lt hc
      rw [alookup_new_ctp_old t _ (by omega)]
      exact h.bucket_parent q c hc
  · intro q
    by_cases hqp : q = p
    · subst hqp
      rw [attachState_children_self, List.chain'_append]
      refine ⟨h.bucket_chain q, List.chain'_singleton _, ?_⟩
      intro x hx y hy
      have hxm : x ∈ childrenOf t q := List.mem_of_mem_getLast? hx
      have hxl : x < t.next_id := h.bucket_lt hxm
      have hyv : t.next_id = y := by simpa using hy
      omega
    · rw [attachState_children_ne t item _ _ (fun hc0 => hqp hc0.symm)]
      exact h.bucket_chain q
  · intro q hq
    rw [attachState_ptc] at hq
    rw [attachState_isNodeAt]
    by_cases hqp : q = p
    · subst hqp
      exact hn
    · rw [alookup_pushChild_ne _ _ _ _ (fun hc0 => hqp hc0.symm)] at hq
      have hqn := h.ptc_node q hq
      have hqlt : q < t.next_id := isNodeAt_lt h hqn
      rw [isNodeAt_bump_ne t item (by omega)]
      exact hqn
  · intro id
    rw [attachState_roots, attachState_ctp]
    constructor
    · intro hmem
      have hlt : id < t.next_id := h.root_lt hmem
      rw [alookup_new_ctp_old t _ (by omega)]
      exact (h.root_iff id).mp hmem
    · intro hl
      by_cases hid : id = t.next_id
      · subst hid
        rw [alookup_new_ctp_self] at hl
        simp at hl
      · rw [alookup_new_ctp_old t _ hid] at hl
        exact (h.root_iff id).mpr hl
  · rw [attachState_roots]
    exact h.root_chain

lemma WF0_link {t : IncrementalTree} (item : Tree) (parent : Option Nat) (h : WF0 t) :
    WF0 (link_to_parent (bump t item) t.next_id parent) := by
  rcases parent with _ | p
  · rw [link_bump_fallback t item (Or.inl rfl)]
    exact WF0_fallbackState item h
  · by_cases hn : isNodeAt (bump t item) p = true
    · rw [link_bump_attach t item hn]
      exact WF0_attachState item p h hn
    · have hfalse : isNodeAt (bump t item) p = false := by
        cases hv : isNodeAt (bump t item) p
        · rfl
        · exact absurd hv hn
      rw [link_bump_fallback t item (Or.inr ⟨p, rfl, hfalse⟩)]
      exact WF0_fallbackState item h

lemma WF0_with_style (style : StyleConfig) : WF0 (IncrementalTree.with_style style) := by
  constructor <;> intros <;> simp_all [IncrementalTree.with_style, childrenOf, alookup]

lemma WF0_applyOp {t : IncrementalTree} (h : WF0 t) (op : Op) : WF0 (applyOp t op) := by
  cases op with
  | node label parent => exact WF0_link _ parent h
  | leaf line parent => exact WF0_link _ parent h
  | leafLines lines parent => exact WF0_link _ parent h

lemma WF0_foldl {t : IncrementalTree} (h : WF0 t) (ops : List Op) :
    WF0 (ops.foldl applyOp t) := by
  induction ops generalizing t with
  | nil => exact h
  | cons op rest ih => exact ih (WF0_applyOp h op)

lemma WF0_buildOps (style : StyleConfig) (ops : List Op) : WF0 (buildOps style ops) :=
  WF0_foldl (WF0_with_style style) ops

/-! ## Generic preorder-flattening lemmas

The two incremental models (`IncrementalTree` and the progress-bar
`TreeState`) share the same child-map shape; the following lemmas are
generic in the child function `childF` and an identifier bound `N` with
the reachable-state properties: children are strictly younger than their
parent (`hmono`) and below the bound (`hlt`). -/

lemma subtreeF_stable (childF : Nat → List Nat) (N : Nat)
    (hmono : ∀ p c, c ∈ childF p → p < c) (hlt : ∀ p c, c ∈ childF p → c < N) :
    ∀ (k id f1 f2 : Nat), N - id ≤ k → N - id < f1 → N - id < f2 →
      subtreeF childF f1 id = subtreeF childF f2 id := by
  intro k
  induction k with
  | zero =>
    intro id f1 f2 hk h1 h2
    have hempty : childF id = [] := by
      cases hc : childF id with
      | nil => rfl
      | cons c rest =>
        have hmem : c ∈ childF id := by rw [hc]; exact List.mem_cons_self _ _
        have hm := hmono id c hmem
        have hl := hlt id c hmem
        omega
    obtain ⟨f1p, rfl⟩ : ∃ f1p, f1 = f1p + 1 := ⟨f1 - 1, by omega⟩
    obtain ⟨f2p, rfl⟩ : ∃ f2p, f2 = f2p + 1 := ⟨f2 - 1, by omega⟩
    simp [subtreeF, hempty]
  | succ k ih =>
    intro id f1 f2 hk h1 h2
    obtain ⟨f1p, rfl⟩ : ∃ f1p, f1 = f1p + 1 := ⟨f1 - 1, by omega⟩
    obtain ⟨f2p, rfl⟩ : ∃ f2p, f2 = f2p + 1 := ⟨f2 - 1, by omega⟩
    show id :: ((childF id).map (subtreeF childF f1p)).flatten
        = id :: ((childF id).map (subtreeF childF f2p)).flatten
    congr 1
    congr 1
    apply List.map_congr_left
    intro c hc
    have hcid := hmono id c hc
    have hcN := hlt id c hc
    exact ih c f1p f2p (by omega) (by omega) (by omega)

lemma subtreeF_unfold (childF : Nat → List Nat) (N : Nat)
    (hmono : ∀ p c, c ∈ childF p → p < c) (hlt : ∀ p c, c ∈ childF p → c < N) (id : Nat) :
    subtreeF childF (N + 1) id = id :: ((childF id).map (subtreeF childF (N + 1))).flatten := by
  show id :: ((childF id).map (subtreeF childF N)).flatten = _
  congr 1
  congr 1
  apply List.map_congr_left
  intro c hc
  have hcid := hmono id c hc
  have hcN := hlt id c hc
  exact subtreeF_stable childF N hmono hlt N c N (N + 1) (by omega) (by omega) (by omega)

lemma mem_subtreeF_self (childF : Nat → List Nat) (N : Nat)
    (hmono : ∀ p c, c ∈ childF p → p < c) (hlt : ∀ p c, c ∈ childF p → c < N) (id : Nat) :
    id ∈ subtreeF childF (N + 1) id := by
  rw [subtreeF_unfold childF N hmono hlt]
  exact List.mem_cons_self _ _

lemma mem_subtreeF_of_child (childF : Nat → List Nat) (N : Nat)
    (hmono : ∀ p c, c ∈ childF p → p < c) (hlt : ∀ p c, c ∈ childF p → c < N)
    {id c x : Nat} (hc : c ∈ childF id) (hx : x ∈ subtreeF childF (N + 1) c) :
    x ∈ subtreeF childF (N + 1) id := by
  rw [subtreeF_unfold childF N hmono hlt]
  refine List.mem_cons_of_mem _ (List.mem_flatten.mpr ⟨subtreeF childF (N + 1) c, ?_, hx⟩)
  exact List.mem_map.mpr ⟨c, hc, rfl⟩

lemma mem_subtreeF_cases (childF : Nat → List Nat) (N : Nat)
    (hmono : ∀ p c, c ∈ childF p → p < c) (hlt : ∀ p c, c ∈ childF p → c < N)
    {id x : Nat} (hx : x ∈ subtreeF childF (N + 1) id) :
    x = id ∨ ∃ c ∈ childF id, x ∈ subtreeF childF (N + 1) c := by
  rw [subtreeF_unfold childF N hmono hlt] at hx
  rcases List.mem_cons.mp hx with hx | hx
  · exact Or.inl hx
  · rcases List.mem_flatten.mp hx with ⟨l, hl, hxl⟩
    rcases List.mem_map.mp hl with ⟨c, hc, rfl⟩
    exact Or.inr ⟨c, hc, hxl⟩

lemma mem_subtreeF_ge (childF : Nat → List Nat) (N : Nat)
    (hmono : ∀ p c, c ∈ childF p → p < c) (hlt : ∀ p c, c ∈ childF p → c < N) :
    ∀ (k id x : Nat), N - id ≤ k → x ∈ subtreeF childF (N + 1) id → id ≤ x := by
  intro k
  induction k with
  | zero =>
    intro id x hk hx
    rcases mem_subtreeF_cases childF N hmono hlt hx with hx | ⟨c, hc, hxc⟩
    · omega
    · have hm := hmono id c hc
      have hl := hlt id c hc
      omega
  | succ k ih =>
    intro id x hk hx
    rcases mem_subtreeF_cases childF N hmono hlt hx with hx | ⟨c, hc, hxc⟩
    · omega
    · have hm := hmono id c hc
      have hl := hlt id c hc
      have := ih c x (by omega) hxc
      omega

lemma mem_subtreeF_lt (childF : Nat → List Nat) (N : Nat)
    (hmono : ∀ p c, c ∈ childF p → p < c) (hlt : ∀ p c, c ∈ childF p → c < N) :
    ∀ (k id x : Nat), N - id ≤ k → x ∈ subtreeF childF (N + 1) id → x = id ∨ x < N := by
  intro k
  induction k with
  | zero =>
    intro id x hk hx
    rcases mem_subtreeF_cases childF N hmono hlt hx with hx | ⟨c, hc, hxc⟩
    · exact Or.inl hx
    · have hm := hmono id c hc
      have hl := hlt id c hc
      omega
  | succ k ih =>
    intro id x hk hx
    rcases mem_subtreeF_cases childF N hmono hlt hx with hx | ⟨c, hc, hxc⟩
    · exact Or.inl hx
    · have hm := hmono id c hc
      have hl := hlt id c hc
      rcases ih c x (by omega) hxc with hx | hx
      · omega
      · exact Or.inr hx

lemma subtreeF_trans (childF : Nat → List Nat) (N : Nat)
    (hmono : ∀ p c, c ∈ childF p → p < c) (hlt : ∀ p c, c ∈ childF p → c < N) :
    ∀ (k a b x : Nat), N - a ≤ k → b ∈ subtreeF childF (N + 1) a →
      x ∈ subtreeF childF (N + 1) b → x ∈ subtreeF childF (N + 1) a := by
  intro k
  induction k with
  | zero =>
    intro a b x hk hb hx
    rcases mem_subtreeF_cases childF N hmono hlt hb with hb | ⟨c, hc, hbc⟩
    · subst hb
      exact hx
    · have hm := hmono a c hc
      have hl := hlt a c hc
      omega
  | succ k ih =>
    intro a b x hk hb hx
    rcases mem_subtreeF_cases childF N hmono hlt hb with hb | ⟨c, hc, hbc⟩
    · subst hb
      exact hx
    · have hm := hmono a c hc
      have hl := hlt a c hc
      exact mem_subtreeF_of_child childF N hmono hlt hc (ih c b x (by omega) hbc hx)

lemma subtreeF_snoc (childF : Nat → List Nat) (N : Nat)
    (hmono : ∀ p c, c ∈ childF p → p < c) (hlt : ∀ p c, c ∈ childF p → c < N) :
    ∀ (k a x : Nat), N - a ≤ k → x ∈ subtreeF childF (N + 1) a → x ≠ a →
      ∃ q, q ∈ subtreeF childF (N + 1) a ∧ x ∈ childF q := by
  intro k
  induction k with
  | zero =>
    intro a x hk hx hne
    rcases mem_subtreeF_cases childF N hmono hlt hx with hx | ⟨c, hc, hxc⟩
    · exact absurd hx hne
    · have hm := hmono a c hc
      have hl := hlt a c hc
      omega
  | succ k ih =>
    intro a x hk hx hne
    rcases mem_subtreeF_cases childF N hmono hlt hx with hx | ⟨c, hc, hxc⟩
    · exact absurd hx hne
    · have hm := hmono a c hc
      have hl := hlt a c hc
      by_cases hxc0 : x = c
      · subst hxc0
        exact ⟨a, mem_subtreeF_self childF N hmono hlt a, hc⟩
      · rcases ih c x (by omega) hxc hxc0 with ⟨q, hq, hxq⟩
        exact ⟨q, mem_subtreeF_of_child childF N hmono hlt hc hq, hxq⟩

lemma subtreeF_reach_total (childF : Nat → List Nat) (N : Nat)
    (hmono : ∀ p c, c ∈ childF p → p < c) (hlt : ∀ p c, c ∈ childF p → c < N)
    (huniq : ∀ p1 p2 c, c ∈ childF p1 → c ∈ childF p2 → p1 = p2) :
    ∀ (k x a b : Nat), x ≤ k → x ∈ subtreeF childF (N + 1) a → x ∈ subtreeF childF (N + 1) b →
      a ∈ subtreeF childF (N + 1) b ∨ b ∈ subtreeF childF (N + 1) a := by
  intro k
  induction k with
  | zero =>
    intro x a b hk hxa hxb
    by_cases hax : x = a
    · subst hax
      exact Or.inl hxb
    by_cases hbx : x = b
    · subst hbx
      exact Or.inr hxa
    rcases subtreeF_snoc childF N hmono hlt N a x (by omega) hxa hax with ⟨q1, _, hxq1⟩
    have := hmono q1 x hxq1
    omega
  | succ k ih =>
    intro x a b hk hxa hxb
    by_cases hax : x = a
    · subst hax
      exact Or.inl hxb
    by_cases hbx : x = b
    · subst hbx
      exact Or.inr hxa
    rcases subtreeF_snoc childF N hmono hlt N a x (by omega) hxa hax with ⟨q1, hq1, hxq1⟩
    rcases subtreeF_snoc childF N hmono hlt N b x (by omega) hxb hbx with ⟨q2, hq2, hxq2⟩
    have hq : q1 = q2 := huniq q1 q2 x hxq1 hxq2
    subst hq
    have hqx : q1 < x := hmono q1 x hxq1
    exact ih q1 a b (by omega) hq1 hq2

lemma subtreeF_not_reach_sibling (childF : Nat → List Nat) (N : Nat)
    (hmono : ∀ p c, c ∈ childF p → p < c) (hlt : ∀ p c, c ∈ childF p → c < N)
    (huniq : ∀ p1 p2 c, c ∈ childF p1 → c ∈ childF p2 → p1 = p2)
    {p c1 c2 : Nat} (h1 : c1 ∈ childF p) (h2 : c2 ∈ childF p) (hne : c1 ≠ c2) :
    c1 ∉ subtreeF childF (N + 1) c2 := by
  intro hr
  rcases subtreeF_snoc childF N hmono hlt N c2 c1 (by omega) hr hne with ⟨q, hq, hc1q⟩
  have hqp : q = p := huniq q p c1 hc1q h1
  subst hqp
  have hle := mem_subtreeF_ge childF N hmono hlt N c2 q (by omega) hq
  have hlt2 := hmono q c2 h2
  omega

lemma subtreeF_sibling_disjoint (childF : Nat → List Nat) (N : Nat)
    (hmono : ∀ p c, c ∈ childF p → p < c) (hlt : ∀ p c, c ∈ childF p → c < N)
    (huniq : ∀ p1 p2 c, c ∈ childF p1 → c ∈ childF p2 → p1 = p2)
    {p c1 c2 : Nat} (h1 : c1 ∈ childF p) (h2 : c2 ∈ childF p) (hne : c1 ≠ c2) :
    ∀ x, x ∈ subtreeF childF (N + 1) c1 → x ∈ subtreeF childF (N + 1) c2 → False := by
  intro x hx1 hx2
  rcases subtreeF_reach_total childF N hmono hlt huniq x x c1 c2 (by omega) hx1 hx2 with hr | hr
  · exact subtreeF_not_reach_sibling childF N hmono hlt huniq h1 h2 hne hr
  · exact subtreeF_not_reach_sibling childF N hmono hlt huniq h2 h1 (fun he => hne he.symm) hr

lemma nodup_subtreeF (childF : Nat → List Nat) (N : Nat)
    (hmono : ∀ p c, c ∈ childF p → p < c) (hlt : ∀ p c, c ∈ childF p → c < N)
    (huniq : ∀ p1 p2 c, c ∈ childF p1 → c ∈ childF p2 → p1 = p2)
    (hbnd : ∀ p, (childF p).Nodup) :
    ∀ (k id : Nat), N - id ≤ k → (subtreeF childF (N + 1) id).Nodup := by
  intro k
  induction k with
  | zero =>
    intro id hk
    have hempty : childF id = [] := by
      cases hc : childF id with
      | nil => rfl
      | cons c rest =>
        have hmem : c ∈ childF id := by rw [hc]; exact List.mem_cons_self _ _
        have hm := hmono id c hmem
        have hl := hlt id c hmem
        omega
    rw [subtreeF_unfold childF N hmono hlt, hempty]
    simp
  | succ k ih =>
    intro id hk
    rw [subtreeF_unfold childF N hmono hlt]
    refine List.nodup_cons.mpr ⟨?_, ?_⟩
    · intro hmem
      rcases List.mem_flatten.mp hmem with ⟨l, hl, hidl⟩
      rcases List.mem_map.mp hl with ⟨c, hc, rfl⟩
      have hge := mem_subtreeF_ge childF N hmono hlt N c id (by omega) hidl
      have hm := hmono id c hc
      omega
    · rw [List.nodup_flatten]
      constructor
      · intro l hl
        rcases List.mem_map.mp hl with ⟨c, hc, rfl⟩
        have hm := hmono id c hc
        have hlc := hlt id c hc
        exact ih c (by omega)
      · rw [List.pairwise_map]
        have hnd := hbnd id
        refine List.Pairwise.imp_of_mem ?_ hnd
        intro c1 c2 hc1 hc2 hne x hx1 hx2
        exact subtreeF_sibling_disjoint childF N hmono hlt huniq hc1 hc2 hne x hx1 hx2

lemma subtreeF_length (childF : Nat → List Nat) (N : Nat)
    (hmono : ∀ p c, c ∈ childF p → p < c) (hlt : ∀ p c, c ∈ childF p → c < N) (id : Nat) :
    (subtreeF childF (N + 1) id).length
      = 1 + ((childF id).map (fun c => (subtreeF childF (N + 1) c).length)).sum := by
  rw [subtreeF_unfold childF N hmono hlt]
  simp only [List.length_cons, List.length_flatten, List.map_map]
  have hmapeq : List.map (List.length ∘ subtreeF childF (N + 1)) (childF id)
      = List.map (fun c => (subtreeF childF (N + 1) c).length) (childF id) := rfl
  rw [hmapeq]
  omega

lemma subtreeF_infix (childF : Nat → List Nat) (N : Nat)
    (hmono : ∀ p c, c ∈ childF p → p < c) (hlt : ∀ p c, c ∈ childF p → c < N) :
    ∀ (k r x : Nat), N - r ≤ k → x ∈ subtreeF childF (N + 1) r →
      ∃ pre post, subtreeF childF (N + 1) r = pre ++ subtreeF childF (N + 1) x ++ post := by
  intro k
  induction k with
  | zero =>
    intro r x hk hx
    rcases mem_subtreeF_cases childF N hmono hlt hx with hx | ⟨c, hc, hxc⟩
    · subst hx
      exact ⟨[], [], by simp⟩
    · have hm := hmono r c hc
      have hl := hlt r c hc
      omega
  | succ k ih =>
    intro r x hk hx
    rcases mem_subtreeF_cases childF N hmono hlt hx with hx | ⟨c, hc, hxc⟩
    · subst hx
      exact ⟨[], [], by simp⟩
    · have hm := hmono r c hc
      have hl := hlt r c hc
      rcases ih c x (by omega) hxc with ⟨pre1, post1, heq⟩
      rcases List.append_of_mem hc with ⟨l1, l2, hsplit⟩
      refine ⟨r :: ((l1.map (subtreeF childF (N + 1))).flatten ++ pre1),
              post1 ++ (l2.map (subtreeF childF (N + 1))).flatten, ?_⟩
      rw [subtreeF_unfold childF N hmono hlt, hsplit]
      simp [heq, List.append_assoc]

lemma flat_infix (childF : Nat → List Nat) (N : Nat)
    (hmono : ∀ p c, c ∈ childF p → p < c) (hlt : ∀ p c, c ∈ childF p → c < N)
    (R : List Nat) {x : Nat}
    (hx : x ∈ (R.map (subtreeF childF (N + 1))).flatten) :
    ∃ pre post, (R.map (subtreeF childF (N + 1))).flatten
      = pre ++ subtreeF childF (N + 1) x ++ post := by
  rcases List.mem_flatten.mp hx with ⟨l, hl, hxl⟩
  rcases List.mem_map.mp hl with ⟨r, hr, rfl⟩
  rcases subtreeF_infix childF N hmono hlt N r x (by omega) hxl with ⟨pre1, post1, heq⟩
  rcases List.append_of_mem hr with ⟨R1, R2, hsplit⟩
  refine ⟨(R1.map (subtreeF childF (N + 1))).flatten ++ pre1,
          post1 ++ (R2.map (subtreeF childF (N + 1))).flatten, ?_⟩
  rw [hsplit]
  simp [heq, List.append_assoc]

lemma nodup_flat (childF : Nat → List Nat) (N : Nat)
    (hmono : ∀ p c, c ∈ childF p → p < c) (hlt : ∀ p c, c ∈ childF p → c < N)
    (huniq : ∀ p1 p2 c, c ∈ childF p1 → c ∈ childF p2 → p1 = p2)
    (hbnd : ∀ p, (childF p).Nodup)
    (R : List Nat) (hRnodup : R.Nodup) (hRroot : ∀ r ∈ R, ∀ p, r ∉ childF p) :
    ((R.map (subtreeF childF (N + 1))).flatten).Nodup := by
  rw [List.nodup_flatten]
  constructor
  · intro l hl
    rcases List.mem_map.mp hl with ⟨r, _, rfl⟩
    exact nodup_subtreeF childF N hmono hlt huniq hbnd N r (by omega)
  · rw [List.pairwise_map]
    refine List.Pairwise.imp_of_mem ?_ hRnodup
    intro r1 r2 hr1 hr2 hne x hx1 hx2
    rcases subtreeF_reach_total childF N hmono hlt huniq x x r1 r2 (by omega) hx1 hx2 with hr | hr
    · rcases subtreeF_snoc childF N hmono hlt N r2 r1 (by omega) hr hne with ⟨q, _, hq⟩
      exact hRroot r1 hr1 q hq
    · rcases subtreeF_snoc childF N hmono hlt N r1 r2 (by omega) hr (fun he => hne he.symm) with ⟨q, _, hq⟩
      exact hRroot r2 hr2 q hq

/-! ## Instantiation for the incremental model -/

@[simp] lemma subtreeIds_def (t : IncrementalTree) (id : Nat) :
    subtreeIds t id = subtreeF (childrenOf t) (t.next_id + 1) id := rfl

@[simp] lemma dfsList_def (t : IncrementalTree) :
    dfsList t = (t.root_ids.map (subtreeF (childrenOf t) (t.next_id + 1))).flatten := rfl

lemma wf_parent_lt {t : IncrementalTree} (h : WF0 t) (hn : NoSelfLoop t)
    {id p : Nat} (hv : alookup t.child_to_parent id = some (some p)) : p < id := by
  have hle := h.parent_le id p hv
  have hmem := mem_of_alookup_eq_some hv
  have hne := hn _ hmem
  have hpi : p ≠ id := by
    intro he
    exact hne (by rw [he])
  omega

lemma wf_hmono {t : IncrementalTree} (h : WF0 t) (hn : NoSelfLoop t) :
    ∀ p c, c ∈ childrenOf t p → p < c := by
  intro p c hc
  exact wf_parent_lt h hn (h.bucket_parent p c hc)

lemma wf_hlt {t : IncrementalTree} (h : WF0 t) :
    ∀ p c, c ∈ childrenOf t p → c < t.next_id := by
  intro p c hc
  exact h.bucket_lt hc

lemma wf_huniq {t : IncrementalTree} (h : WF0 t) :
    ∀ p1 p2 c, c ∈ childrenOf t p1 → c ∈ childrenOf t p2 → p1 = p2 := by
  intro p1 p2 c h1 h2
  have e1 := h.bucket_parent p1 c h1
  have e2 := h.bucket_parent p2 c h2
  rw [e1] at e2
  simpa using e2

lemma wf_hbnd {t : IncrementalTree} (h : WF0 t) :
    ∀ p, (childrenOf t p).Nodup := by
  intro p
  exact (List.chain'_iff_pairwise.mp (h.bucket_chain p)).imp Nat.ne_of_lt

lemma wf_roots_nodup {t : IncrementalTree} (h : WF0 t) : t.root_ids.Nodup :=
  (List.chain'_iff_pairwise.mp h.root_chain).imp Nat.ne_of_lt

lemma wf_root_not_child {t : IncrementalTree} (h : WF0 t) :
    ∀ r ∈ t.root_ids, ∀ p, r ∉ childrenOf t p := by
  intro r hr p hc
  have e1 := (h.root_iff r).mp hr
  have e2 := h.bucket_parent p r hc
  rw [e1] at e2
  simp at e2

lemma mem_dfsList_of_lt {t : IncrementalTree} (h : WF0 t) (hn : NoSelfLoop t) :
    ∀ (k id : Nat), id ≤ k → id < t.next_id → id ∈ dfsList t := by
  have hmono := wf_hmono h hn
  have hlt := wf_hlt h
  intro k
  induction k with
  | zero =>
    intro id hk hid
    obtain ⟨v, hv⟩ : ∃ v, alookup t.child_to_parent id = some v := by
      have hsome := (h.ctp_keys id).mpr hid
      cases hl : alookup t.child_to_parent id with
      | none => rw [hl] at hsome; simp at hsome
      | some v => exact ⟨v, rfl⟩
    cases v with
    | none =>
      have hroot := (h.root_iff id).mpr hv
      rw [dfsList_def]
      exact List.mem_flatten.mpr ⟨_, List.mem_map.mpr ⟨id, hroot, rfl⟩,
        mem_subtreeF_self (childrenOf t) t.next_id hmono hlt id⟩
    | some p =>
      have := wf_parent_lt h hn hv
      omega
  | succ k ih =>
    intro id hk hid
    obtain ⟨v, hv⟩ : ∃ v, alookup t.child_to_parent id = some v := by
      have hsome := (h.ctp_keys id).mpr hid
      cases hl : alookup t.child_to_parent id with
      | none => rw [hl] at hsome; simp at hsome
      | some v => exact ⟨v, rfl⟩
    cases v with
    | none =>
      have hroot := (h.root_iff id).mpr hv
      rw [dfsList_def]
      exact List.mem_flatten.mpr ⟨_, List.mem_map.mpr ⟨id, hroot, rfl⟩,
        mem_subtreeF_self (childrenOf t) t.next_id hmono hlt id⟩
    | some p =>
      have hplt : p < id := wf_parent_lt h hn hv
      have hpn : p < t.next_id := isNodeAt_lt h (h.parent_node id p hv)
      have hpmem := ih p (by omega) hpn
      rw [dfsList_def] at hpmem ⊢
      rcases List.mem_flatten.mp hpmem with ⟨l, hl, hpl⟩
      rcases List.mem_map.mp hl with ⟨r, hr, rfl⟩
      have hidp : id ∈ subtreeF (childrenOf t) (t.next_id + 1) p :=
        mem_subtreeF_of_child (childrenOf t) t.next_id hmono hlt (h.child_mem id p hv)
          (mem_subtreeF_self (childrenOf t) t.next_id hmono hlt id)
      have hidr : id ∈ subtreeF (childrenOf t) (t.next_id + 1) r :=
        subtreeF_trans (childrenOf t) t.next_id hmono hlt t.next_id r p id (by omega) hpl hidp
      exact List.mem_flatten.mpr ⟨_, List.mem_map.mpr ⟨r, hr, rfl⟩, hidr⟩

lemma dfsList_mem_lt {t : IncrementalTree} (h : WF0 t) (hn : NoSelfLoop t) :
    ∀ x ∈ dfsList t, x < t.next_id := by
  have hmono := wf_hmono h hn
  have hlt := wf_hlt h
  intro x hx
  rw [dfsList_def] at hx
  rcases List.mem_flatten.mp hx with ⟨l, hl, hxl⟩
  rcases List.mem_map.mp hl with ⟨r, hr, rfl⟩
  have hrlt := h.root_lt hr
  rcases mem_subtreeF_lt (childrenOf t) t.next_id hmono hlt t.next_id r x (by omega) hxl with hx | hx
  · omega
  · exact hx

lemma dfsList_nodup {t : IncrementalTree} (h : WF0 t) (hn : NoSelfLoop t) :
    (dfsList t).Nodup := by
  rw [dfsList_def]
  exact nodup_flat (childrenOf t) t.next_id (wf_hmono h hn) (wf_hlt h) (wf_huniq h)
    (wf_hbnd h) t.root_ids (wf_roots_nodup h) (wf_root_not_child h)

lemma subtreeF_ne_nil (childF : Nat → List Nat) (N : Nat)
    (hmono : ∀ p c, c ∈ childF p → p < c) (hlt : ∀ p c, c ∈ childF p → c < N) (id : Nat) :
    subtreeF childF (N + 1) id ≠ [] := by
  rw [subtreeF_unfold childF N hmono hlt]
  simp

lemma cipeLoop_spec {t : IncrementalTree} (h : WF0 t) (hn : NoSelfLoop t) :
    ∀ (fuel : Nat) (stack : List Nat) (pos id : Nat),
      ((stack.map (subtreeIds t)).flatten).length ≤ fuel →
      cipeLoop t fuel stack pos id =
        (if id ∈ (stack.map (subtreeIds t)).flatten then
          SearchOutcome.found (pos + ((stack.map (subtreeIds t)).flatten).indexOf id)
        else SearchOutcome.panicked) := by
  have hmono := wf_hmono h hn
  have hlt := wf_hlt h
  have hunf : ∀ c, subtreeIds t c
      = c :: ((childrenOf t c).map (subtreeIds t)).flatten := by
    intro c
    rw [subtreeIds_def, subtreeF_unfold (childrenOf t) t.next_id hmono hlt]
    rfl
  intro fuel
  induction fuel with
  | zero =>
    intro stack pos id hlen
    cases stack with
    | nil => simp [cipeLoop]
    | cons cur rest =>
      exfalso
      rw [List.map_cons, List.flatten_cons, List.length_append] at hlen
      have hne := subtreeF_ne_nil (childrenOf t) t.next_id hmono hlt cur
      have hpos : 0 < (subtreeIds t cur).length := by
        rw [subtreeIds_def]
        exact List.length_pos.mpr hne
      omega
  | succ fuel ih =>
    intro stack pos id hlen
    cases stack with
    | nil => simp [cipeLoop]
    | cons cur rest =>
      have hflat : ((cur :: rest).map (subtreeIds t)).flatten
          = cur :: (((childrenOf t cur ++ rest).map (subtreeIds t)).flatten) := by
        rw [List.map_cons, List.flatten_cons, hunf cur, List.map_append, List.flatten_append]
        simp [List.append_assoc]
      by_cases hcur : cur = id
      · subst hcur
        have hstep : cipeLoop t (fuel + 1) (cur :: rest) pos cur = SearchOutcome.found pos := by
          simp [cipeLoop]
        rw [hstep, hflat]
        rw [if_pos (List.mem_cons_self _ _)]
        rw [List.indexOf_cons_self]
        simp
      · have hstep : cipeLoop t (fuel + 1) (cur :: rest) pos id
            = cipeLoop t fuel (childrenOf t cur ++ rest) (pos + 1) id := by
          simp [cipeLoop, hcur]
        have hlen2 : (((childrenOf t cur ++ rest).map (subtreeIds t)).flatten).length ≤ fuel := by
          have := congrArg List.length hflat
          rw [List.length_cons] at this
          omega
        rw [hstep, ih _ (pos + 1) id hlen2, hflat]
        by_cases hmem : id ∈ ((childrenOf t cur ++ rest).map (subtreeIds t)).flatten
        · rw [if_pos hmem, if_pos (List.mem_cons_of_mem _ hmem)]
          rw [List.indexOf_cons_ne _ hcur]
          congr 1
          omega
        · rw [if_neg hmem, if_neg ?_]
          intro hc
          rcases List.mem_cons.mp hc with hc | hc
          · exact hcur hc.symm
          · exact hmem hc

lemma cipLoop_spec {t : IncrementalTree} (h : WF0 t) (hn : NoSelfLoop t) :
    ∀ (fuel : Nat) (stack : List Nat) (count : Nat),
      ((stack.map (subtreeIds t)).flatten).length ≤ fuel →
      cipLoop t fuel stack count
        = some (count + ((stack.map (subtreeIds t)).flatten).length) := by
  have hmono := wf_hmono h hn
  have hlt := wf_hlt h
  have hunf : ∀ c, subtreeIds t c
      = c :: ((childrenOf t c).map (subtreeIds t)).flatten := by
    intro c
    rw [subtreeIds_def, subtreeF_unfold (childrenOf t) t.next_id hmono hlt]
    rfl
  intro fuel
  induction fuel with
  | zero =>
    intro stack count hlen
    cases stack with
    | nil => simp [cipLoop]
    | cons cur rest =>
      exfalso
      rw [List.map_cons, List.flatten_cons, List.length_append] at hlen
      have hne := subtreeF_ne_nil (childrenOf t) t.next_id hmono hlt cur
      have hpos : 0 < (subtreeIds t cur).length := by
        rw [subtreeIds_def]
        exact List.length_pos.mpr hne
      omega
  | succ fuel ih =>
    intro stack count hlen
    cases stack with
    | nil => simp [cipLoop]
    | cons cur rest =>
      have hflat : ((cur :: rest).map (subtreeIds t)).flatten
          = cur :: (((childrenOf t cur ++ rest).map (subtreeIds t)).flatten) := by
        rw [List.map_cons, List.flatten_cons, hunf cur, List.map_append, List.flatten_append]
        simp [List.append_assoc]
      have hstep : cipLoop t (fuel + 1) (cur :: rest) count
          = cipLoop t fuel (childrenOf t cur ++ rest) (count + 1) := by
        simp [cipLoop]
      have hlen2 : (((childrenOf t cur ++ rest).map (subtreeIds t)).flatten).length ≤ fuel := by
        have := congrArg List.length hflat
        rw [List.length_cons] at this
        omega
      rw [hstep, ih _ (count + 1) hlen2, hflat]
      rw [List.length_cons]
      congr 1
      omega

/-- C4 counterexample: in the self-parent corner state, identifier 0 WAS
returned by an `add_node` call, yet `calculate_insert_position_for_existing`
panics, because the self-parented item is reachable from no root. -/
theorem c4_counterexample :
    calculate_insert_position_for_existing exSelfParent 0 = SearchOutcome.panicked ∧
    0 < exSelfParent.next_id ∧
    alookup exSelfParent.child_to_parent 0 = some (some 0) := by
  decide

/-- C4 (amended): on every model state reachable by `add_*` calls in which
no item is its own parent (i.e. `add_node` was never called with the
not-yet-assigned fresh identifier as the parent),
`calculate_insert_position_for_existing(id)` returns the 0-based index of
`id` in the depth-first document-order flattening of the current tree
(roots in root-set order, each item immediately followed by its
descendants, children in `children_of` order) for every previously
assigned `id`, and hits the `panic!` exactly for the identifiers never
assigned by the model. -/
theorem c4_existing_position_is_dfs_index :
    ∀ (style : StyleConfig) (ops : List Op) (id : Nat),
      NoSelfLoop (buildOps style ops) →
      (id < (buildOps style ops).next_id →
        calculate_insert_position_for_existing (buildOps style ops) id
          = SearchOutcome.found ((dfsList (buildOps style ops)).indexOf id)) ∧
      ((buildOps style ops).next_id ≤ id →
        calculate_insert_position_for_existing (buildOps style ops) id
          = SearchOutcome.panicked) := by
  intro style ops id hn
  have h := WF0_buildOps style ops
  have hflat : (((buildOps style ops).root_ids.map (subtreeIds (buildOps style ops))).flatten)
      = dfsList (buildOps style ops) := rfl
  have hspec := cipeLoop_spec h hn ((dfsList (buildOps style ops)).length + 1)
    (buildOps style ops).root_ids 0 id (by rw [hflat]; omega)
  rw [hflat] at hspec
  constructor
  · intro hid
    have hmem : id ∈ dfsList (buildOps style ops) :=
      mem_dfsList_of_lt h hn id id (le_refl id) hid
    show cipeLoop (buildOps style ops) ((dfsList (buildOps style ops)).length + 1)
        (buildOps style ops).root_ids 0 id = _
    rw [hspec, if_pos hmem]
    simp
  · intro hid
    have hnot : id ∉ dfsList (buildOps style ops) := by
      intro hc
      have := dfsList_mem_lt h hn id hc
      omega
    show cipeLoop (buildOps style ops) ((dfsList (buildOps style ops)).length + 1)
        (buildOps style ops).root_ids 0 id = _
    rw [hspec, if_neg hnot]

/-- C4 witness: in the `r → c1 → gc1` model, identifier 2 (`gc1`) is found
at its depth-first index. -/
theorem c4_witness :
    calculate_insert_position_for_existing exRCG 2
      = SearchOutcome.found ((dfsList exRCG).indexOf 2) :=
  (c4_existing_position_is_dfs_index StyleConfig.unicode
    [Op.node ("r") none, Op.node ("c1") (some 0), Op.leaf ("gc1") (some 1)] 2
    (by decide)).1 (by decide)

lemma fpcLoop_some {t : IncrementalTree} (h : WF0 t) (hn : NoSelfLoop t) (isl : Nat → Bool) :
    ∀ (fuel idx : Nat) (path : List Bool), idx < fuel →
      ∃ res, fpcLoop (fun j => (alookup t.child_to_parent j).bind (fun parent => parent)) isl
        fuel idx path = some res := by
  intro fuel
  induction fuel with
  | zero =>
    intro idx path h0
    omega
  | succ fuel ih =>
    intro idx path hidx
    cases hp : (alookup t.child_to_parent idx).bind (fun parent => parent) with
    | none => exact ⟨path, by simp [fpcLoop, hp]⟩
    | some p =>
      have hctp : alookup t.child_to_parent idx = some (some p) := by
        cases hl : alookup t.child_to_parent idx with
        | none => rw [hl] at hp; simp at hp
        | some v =>
          rw [hl] at hp
          cases v with
          | none => simp at hp
          | some q =>
            simp at hp
            rw [hp]
      have hplt := wf_parent_lt h hn hctp
      rcases ih p (path ++ [isl idx]) (by omega) with ⟨res, hres⟩
      refine ⟨res, ?_⟩
      show fpcLoop _ isl (fuel + 1) idx path = some res
      rw [show fpcLoop (fun j => (alookup t.child_to_parent j).bind (fun parent => parent)) isl
          (fuel + 1) idx path
        = fpcLoop (fun j => (alookup t.child_to_parent j).bind (fun parent => parent)) isl
          fuel p (path ++ [isl idx]) from by simp [fpcLoop, hp]]
      exact hres

/-- C7 counterexample: in the self-parent corner state, identifier 0 exists
in the model and is not a root, yet `get_prefix(0)` does not return at all
(the ancestor walk loops forever on the self-parent cycle; the embedding
reports the divergence as the outer `none`). -/
theorem c7_counterexample :
    get_prefix exSelfParent 0 = none ∧
    alookup exSelfParent.child_to_parent 0 = some (some 0) ∧
    (alookup exSelfParent.trees 0).isSome = true ∧
    0 ∉ exSelfParent.root_ids := by
  decide

/-- C7 (amended): on every model state reachable by `add_*` calls in which
no item is its own parent, `get_prefix` returns `None` exactly when the
queried identifier is a root item or does not exist in the model, and for
every existing non-root identifier it terminates and returns `Some`
prefix string. -/
theorem c7_none_iff_root_or_missing :
    ∀ (style : StyleConfig) (ops : List Op) (id : Nat),
      NoSelfLoop (buildOps style ops) →
      ( get_prefix (buildOps style ops) id = some none ↔
        id ∈ (buildOps style ops).root_ids ∨ alookup (buildOps style ops).trees id = none) ∧
      (id ∉ (buildOps style ops).root_ids → (alookup (buildOps style ops).trees id).isSome = true →
        ∃ s, get_prefix (buildOps style ops) id = some (some s)) := by
  intro style ops id hn
  have h := WF0_buildOps style ops
  by_cases h1 : alookup (buildOps style ops).child_to_parent id = some none
  · have hval : get_prefix (buildOps style ops) id = some none := by
      unfold get_prefix
      rw [if_pos h1]
    have hroot : id ∈ (buildOps style ops).root_ids := (h.root_iff id).mpr h1
    exact ⟨by simp [hval, hroot], fun hr _ => absurd hroot hr⟩
  · have hnroot : id ∉ (buildOps style ops).root_ids := fun hc => h1 ((h.root_iff id).mp hc)
    by_cases h2 : alookup (buildOps style ops).trees id = none
    · have hval : get_prefix (buildOps style ops) id = some none := by
        unfold get_prefix
        rw [if_neg h1, if_pos (by rw [h2]; rfl)]
      refine ⟨by simp [hval, h2], fun _ hne => ?_⟩
      rw [h2] at hne
      simp at hne
    · have hid_lt : id < (buildOps style ops).next_id := by
        refine (h.trees_keys id).mp ?_
        cases hl : alookup (buildOps style ops).trees id with
        | none => exact absurd hl h2
        | some tr => rfl
      rcases fpcLoop_some h hn
          (fun idx =>
            match alookup (buildOps style ops).child_to_parent idx with
            | some (some parent_id) =>
              match alookup (buildOps style ops).parent_to_children parent_id with
              | some children => !children.isEmpty && (children.getLast? == some idx)
              | none => false
            | _ => false)
          (buildOps style ops).next_id id [] hid_lt with ⟨res, hres⟩
      have hval : get_prefix (buildOps style ops) id
          = some (some ( compute_prefix res.reverse (buildOps style ops).style)) := by
        unfold get_prefix
        rw [if_neg h1, if_neg (by
          cases hl : alookup (buildOps style ops).trees id with
          | none => exact absurd hl h2
          | some tr => simp)]
        unfold from_parent_chain
        rw [hres]
        rfl
      refine ⟨?_, fun _ _ => ⟨_, hval⟩⟩
      rw [hval]
      simp [hnroot, h2]

/-- C7 witness: in the root-with-leaf model, the existing non-root
identifier 1 gets a prefix string. -/
theorem c7_witness :
    ∃ s, get_prefix exRootA 1 = some (some s) :=
  (c7_none_iff_root_or_missing StyleConfig.unicode
    [Op.node ("root") none, Op.leaf ("a") (some 0)] 1
    (by decide)).2 (by decide) (by decide)

/-- C8: after every sequence of `add_node`/`add_leaf`/`add_leaf_lines`
calls starting from a new model, every identifier listed in a
`children_of` bucket has that bucket's key recorded as its parent in
`child_to_parent`; every assigned identifier outside the root set appears
as a child in exactly one bucket, exactly once; and every identifier in
the root set has parent `None` and the root set is strictly increasing,
which is creation order (identifiers are assigned in increasing order). -/
theorem c8_relationship_map_invariants :
    ∀ (style : StyleConfig) (ops : List Op),
      (∀ p c, c ∈ childrenOf (buildOps style ops) p →
          alookup (buildOps style ops).child_to_parent c = some (some p)) ∧
      (∀ id, id < (buildOps style ops).next_id → id ∉ (buildOps style ops).root_ids →
          ∃ p, (childrenOf (buildOps style ops) p).count id = 1 ∧
            ∀ q, id ∈ childrenOf (buildOps style ops) q → q = p) ∧
      (∀ id, id ∈ (buildOps style ops).root_ids →
          alookup (buildOps style ops).child_to_parent id = some none) ∧
      List.Chain' (· < ·) (buildOps style ops).root_ids := by
  intro style ops
  have h := WF0_buildOps style ops
  refine ⟨h.bucket_parent, ?_, fun id hid => (h.root_iff id).mp hid, h.root_chain⟩
  intro id hlt hnroot
  obtain ⟨v, hv⟩ : ∃ v, alookup (buildOps style ops).child_to_parent id = some v := by
    have hsome := (h.ctp_keys id).mpr hlt
    cases hl : alookup (buildOps style ops).child_to_parent id with
    | none => rw [hl] at hsome; simp at hsome
    | some v => exact ⟨v, rfl⟩
  cases v with
  | none => exact absurd ((h.root_iff id).mpr hv) hnroot
  | some p =>
    refine ⟨p, ?_, ?_⟩
    · exact List.count_eq_one_of_mem (wf_hbnd h p) (h.child_mem id p hv)
    · intro q hq
      have := h.bucket_parent q id hq
      rw [hv] at this
      simpa using this.symm

/-- C8 witness: in the root-with-two-leaves model, leaf 1 sits in exactly
the bucket of its parent 0. -/
theorem c8_witness :
    alookup exRootAB.child_to_parent 1 = some (some 0) ∧
    ∃ p, (childrenOf exRootAB p).count 1 = 1 ∧ ∀ q, 1 ∈ childrenOf exRootAB q → q = p := by
  have hthm := c8_relationship_map_invariants StyleConfig.unicode
    [Op.node ("root") none, Op.leaf ("a") (some 0), Op.leaf ("b") (some 0)]
  exact ⟨hthm.1 0 1 (by decide), hthm.2.1 1 (by decide) (by decide)⟩

lemma calc_insert_subtree_size {t : IncrementalTree} (h : WF0 t) (hn : NoSelfLoop t) (p : Nat) :
    calculate_insert_position t (some p) = some ((subtreeIds t p).length) := by
  have hflat : (([p].map (subtreeIds t)).flatten) = subtreeIds t p := by simp
  have hspec := cipLoop_spec h hn ((subtreeIds t p).length + 1) [p] 0 (by rw [hflat]; omega)
  rw [hflat] at hspec
  show cipLoop t ((subtreeIds t p).length + 1) [p] 0 = _
  rw [hspec]
  simp

lemma subtree_size_one_plus_descendants {t : IncrementalTree} (h : WF0 t) (hn : NoSelfLoop t)
    (p : Nat) :
    (subtreeIds t p).length
      = 1 + ((childrenOf t p).map (fun c => (subtreeIds t c).length)).sum := by
  rw [subtreeIds_def]
  rw [subtreeF_length (childrenOf t) t.next_id (wf_hmono h hn) (wf_hlt h)]
  rfl

/-- C6 witness: adding a leaf under the nonexistent parent 5 on an empty
model records it as a root with a fresh identifier. -/
theorem c6_witness :
    (add_leaf IncrementalTree.new ("a") (some 5)).1 = IncrementalTree.new.next_id ∧
    (add_leaf IncrementalTree.new ("a") (some 5)).2.root_ids
      = IncrementalTree.new.root_ids ++ [IncrementalTree.new.next_id] ∧
    alookup (add_leaf IncrementalTree.new ("a") (some 5)).2.child_to_parent
      IncrementalTree.new.next_id = some none :=
  c6_bad_parent_falls_back_to_root.2.1 IncrementalTree.new ("a") (some 5)
    (Or.inr ⟨5, rfl, Or.inr (by decide)⟩)

lemma build_subtree_stable {t : IncrementalTree} (h : WF0 t) (hn : NoSelfLoop t) :
    ∀ (k id f1 f2 : Nat), t.next_id - id ≤ k → t.next_id - id < f1 → t.next_id - id < f2 →
      build_subtree t f1 id = build_subtree t f2 id := by
  have hmono := wf_hmono h hn
  have hlt := wf_hlt h
  intro k
  induction k with
  | zero =>
    intro id f1 f2 hk h1 h2
    have hempty : childrenOf t id = [] := by
      cases hc : childrenOf t id with
      | nil => rfl
      | cons c rest =>
        have hmem : c ∈ childrenOf t id := by rw [hc]; exact List.mem_cons_self _ _
        have hm := hmono id c hmem
        have hl := hlt id c hmem
        omega
    obtain ⟨f1p, rfl⟩ : ∃ f1p, f1 = f1p + 1 := ⟨f1 - 1, by omega⟩
    obtain ⟨f2p, rfl⟩ : ∃ f2p, f2 = f2p + 1 := ⟨f2 - 1, by omega⟩
    show (match alookup t.trees id with
      | none => none
      | some (Tree.node label _) =>
          some (Tree.node label ((childrenOf t id).filterMap (build_subtree t f1p)))
      | some (Tree.leaf lines) => some (Tree.leaf lines))
      = (match alookup t.trees id with
      | none => none
      | some (Tree.node label _) =>
          some (Tree.node label ((childrenOf t id).filterMap (build_subtree t f2p)))
      | some (Tree.leaf lines) => some (Tree.leaf lines))
    rw [hempty]
    cases htr : alookup t.trees id with
    | none => rfl
    | some tr => cases tr with
      | node lab ch => rfl
      | leaf lines => rfl
  | succ k ih =>
    intro id f1 f2 hk h1 h2
    obtain ⟨f1p, rfl⟩ : ∃ f1p, f1 = f1p + 1 := ⟨f1 - 1, by omega⟩
    obtain ⟨f2p, rfl⟩ : ∃ f2p, f2 = f2p + 1 := ⟨f2 - 1, by omega⟩
    show (match alookup t.trees id with
      | none => none
      | some (Tree.node label _) =>
          some (Tree.node label ((childrenOf t id).filterMap (build_subtree t f1p)))
      | some (Tree.leaf lines) => some (Tree.leaf lines))
      = (match alookup t.trees id with
      | none => none
      | some (Tree.node label _) =>
          some (Tree.node label ((childrenOf t id).filterMap (build_subtree t f2p)))
      | some (Tree.leaf lines) => some (Tree.leaf lines))
    cases htr : alookup t.trees id with
    | none => rfl
    | some tr =>
      cases tr with
      | leaf lines => rfl
      | node lab ch =>
        have hcongr : (childrenOf t id).filterMap (build_subtree t f1p)
            = (childrenOf t id).filterMap (build_subtree t f2p) := by
          apply List.filterMap_congr
          intro c hc
          have hm := hmono id c hc
          have hl := hlt id c hc
          exact ih c f1p f2p (by omega) (by omega) (by omega)
        rw [hcongr]

/-- C5: `materialize` (`build_tree`) returns `None` on an empty model; on a
model with exactly one root it builds the static tree recursively from
that root's subtree via `build_subtree` (children in `children_of` order,
leaf lines copied), whose recursion is fuel-independent beyond the depth
bound `next_id` on states without a self-parented item; with two or more
roots it wraps the root subtrees, in root-set order, in a synthetic Node
with an empty label; and building `root{leafA, node{leafB}}` incrementally
and materialising yields exactly the directly constructed static tree. -/
theorem c5_materialize_round_trip :
    (∀ t : IncrementalTree, t.trees.isEmpty = true → build_tree t = none) ∧
    (∀ style : StyleConfig, build_tree (IncrementalTree.with_style style) = none) ∧
    (∀ (style : StyleConfig) (ops : List Op) (r : Nat),
        (buildOps style ops).root_ids = [r] →
        build_tree (buildOps style ops)
          = build_subtree (buildOps style ops) ((buildOps style ops).next_id + 1) r) ∧
    (∀ (style : StyleConfig) (ops : List Op) (r fuel : Nat),
        NoSelfLoop (buildOps style ops) →
        (buildOps style ops).next_id < fuel →
        build_subtree (buildOps style ops) fuel r
          = build_subtree (buildOps style ops) ((buildOps style ops).next_id + 1) r) ∧
    (∀ (style : StyleConfig) (ops : List Op) (r1 r2 : Nat) (rs : List Nat),
        (buildOps style ops).root_ids = r1 :: r2 :: rs →
        build_tree (buildOps style ops)
          = some (Tree.node ("")
              ((r1 :: r2 :: rs).filterMap
                (build_subtree (buildOps style ops) ((buildOps style ops).next_id + 1))))) ∧
    (build_tree exRound
      = some (Tree.node ("root") [Tree.leaf [("leafA")], Tree.node ("node") [Tree.leaf [("leafB")]]])) := by
  refine ⟨?_, ?_, ?_, ?_, ?_, ?_⟩
  · intro t hemp
    unfold build_tree
    rw [if_pos hemp]
  · intro style
    rfl
  · intro style ops r hroots
    have h := WF0_buildOps style ops
    have hrmem : r ∈ (buildOps style ops).root_ids := by rw [hroots]; exact List.mem_cons_self _ _
    have hrlt := h.root_lt hrmem
    have hne : (buildOps style ops).trees.isEmpty = false := by
      have hsome := (h.trees_keys r).mpr hrlt
      cases htr : (buildOps style ops).trees with
      | nil => rw [htr] at hsome; simp [alookup] at hsome
      | cons kv rest => rfl
    unfold build_tree
    rw [hne, hroots]
    rfl
  · intro style ops r fuel hn hfuel
    exact build_subtree_stable (WF0_buildOps style ops) hn (buildOps style ops).next_id r fuel
      ((buildOps style ops).next_id + 1) (by omega) (by omega) (by omega)
  · intro style ops r1 r2 rs hroots
    have h := WF0_buildOps style ops
    have hrmem : r1 ∈ (buildOps style ops).root_ids := by rw [hroots]; exact List.mem_cons_self _ _
    have hrlt := h.root_lt hrmem
    have hne : (buildOps style ops).trees.isEmpty = false := by
      have hsome := (h.trees_keys r1).mpr hrlt
      cases htr : (buildOps style ops).trees with
      | nil => rw [htr] at hsome; simp [alookup] at hsome
      | cons kv rest => rfl
    unfold build_tree
    rw [hne, hroots]
    rfl
  · rfl

/-- C5 witness: the round-trip model has the single root 0 and
materialises through `build_subtree` at the canonical fuel. -/
theorem c5_witness :
    build_tree exRound = build_subtree exRound (exRound.next_id + 1) 0 :=
  c5_materialize_round_trip.2.2.1 StyleConfig.unicode
    [Op.node ("root") none, Op.leaf ("leafA") (some 0),
     Op.node ("node") (some 0), Op.leaf ("leafB") (some 2)] 0 (by decide)

lemma natSup_nil : natSup [] = 0 := rfl

lemma natSup_cons (a : Nat) (l : List Nat) : natSup (a :: l) = max a (natSup l) := rfl

lemma natSup_append (l1 l2 : List Nat) : natSup (l1 ++ l2) = max (natSup l1) (natSup l2) := by
  induction l1 with
  | nil =>
    simp [natSup_nil]
  | cons a l1 ih =>
    rw [List.cons_append, natSup_cons, natSup_cons, ih]
    omega

lemma natSup_coe (l : List Nat) : natSup l = (↑l : Multiset Nat).sup := by
  induction l with
  | nil => rfl
  | cons a l ih =>
    rw [natSup_cons, ih]
    rw [show ((↑(a :: l) : Multiset Nat)) = a ::ₘ (↑l : Multiset Nat) from rfl]
    rw [Multiset.sup_cons]

lemma natSup_perm {l1 l2 : List Nat} (h : l1.Perm l2) : natSup l1 = natSup l2 := by
  rw [natSup_coe, natSup_coe, Multiset.coe_eq_coe.mpr h]

lemma foldl_max_natSup (f : Nat → Nat) :
    ∀ (l : List Nat) (b : Nat), l.foldl (fun acc d => max acc (f d)) b = max b (natSup (l.map f)) := by
  intro l
  induction l with
  | nil =>
    intro b
    simp [natSup_nil]
  | cons a l ih =>
    intro b
    rw [List.foldl_cons, ih, List.map_cons, natSup_cons]
    omega

lemma natSup_range' : ∀ (n a : Nat), natSup (List.range' a (n + 1)) = a + n := by
  intro n
  induction n with
  | zero =>
    intro a
    simp [List.range', natSup_cons, natSup_nil]
  | succ n ih =>
    intro a
    rw [show List.range' a (n + 2) = a :: List.range' (a + 1) (n + 1) from rfl]
    rw [natSup_cons, ih]
    omega

/-! ## Instantiation for the progress-bar tree state -/

@[simp] lemma subtreeTS_def (ts : TreeStateM) (id : Nat) :
    subtreeTS ts id = subtreeF (childrenOfTS ts) (ts.items.length + 1) id := rfl

lemma posOf_def (ts : TreeStateM) (d : Nat) :
    posOf ts d = (alookup ts.index_to_position d).getD 0 := rfl

lemma ts_mono {ts : TreeStateM} (h : TSHyps ts) :
    ∀ p c, c ∈ childrenOfTS ts p → p < c := by
  intro p c hc
  unfold childrenOfTS at hc
  cases hl : alookup ts.parent_to_children p with
  | none => rw [hl] at hc; simp at hc
  | some l =>
    rw [hl] at hc
    exact h.2.2.1 _ (mem_of_alookup_eq_some hl) c hc

lemma ts_lt {ts : TreeStateM} (h : TSHyps ts) :
    ∀ p c, c ∈ childrenOfTS ts p → c < ts.items.length := by
  intro p c hc
  unfold childrenOfTS at hc
  cases hl : alookup ts.parent_to_children p with
  | none => rw [hl] at hc; simp at hc
  | some l =>
    rw [hl] at hc
    exact h.2.2.2.1 _ (mem_of_alookup_eq_some hl) c hc

lemma ts_bucket_mem {ts : TreeStateM} (h : TSHyps ts) :
    ∀ p c, c ∈ childrenOfTS ts p → c ∈ ts.items.map PBItem.id := by
  intro p c hc
  unfold childrenOfTS at hc
  cases hl : alookup ts.parent_to_children p with
  | none => rw [hl] at hc; simp at hc
  | some l =>
    rw [hl] at hc
    exact h.2.2.2.2 _ (mem_of_alookup_eq_some hl) c hc

lemma ts_pos_of_mem {ts : TreeStateM} (h : TSHyps ts) {c : Nat}
    (hc : c ∈ ts.items.map PBItem.id) :
    ∃ j, alookup ts.index_to_position c = some j := by
  rcases List.getElem?_of_mem hc with ⟨n, hn⟩
  have hmem : (n, c) ∈ (ts.items.map PBItem.id).enum :=
    List.mem_enum_iff_getElem?.mpr hn
  exact ⟨n, h.2.1 _ hmem⟩

lemma ts_pres {ts : TreeStateM} (h : TSHyps ts) :
    ∀ p c, c ∈ childrenOfTS ts p → (alookup ts.index_to_position c).isSome = true := by
  intro p c hc
  rcases ts_pos_of_mem h (ts_bucket_mem h p c hc) with ⟨j, hj⟩
  rw [hj]
  rfl

lemma subtreeTS_unfold {ts : TreeStateM} (h : TSHyps ts) (c : Nat) :
    subtreeTS ts c = c :: properTS ts c := by
  rw [subtreeTS_def, subtreeF_unfold (childrenOfTS ts) ts.items.length (ts_mono h) (ts_lt h)]
  rfl

lemma flatten_map_subtreeTS_perm {ts : TreeStateM} (h : TSHyps ts) :
    ∀ ds : List Nat,
      ((ds.map (subtreeTS ts)).flatten).Perm (ds ++ (ds.map (properTS ts)).flatten) := by
  intro ds
  induction ds with
  | nil => simp
  | cons c ds2 ih =>
    rw [List.map_cons, List.flatten_cons, subtreeTS_unfold h c, List.map_cons, List.flatten_cons]
    simp only [List.cons_append]
    refine List.Perm.cons c ?_
    have s1 : (properTS ts c ++ (ds2.map (subtreeTS ts)).flatten).Perm
        (properTS ts c ++ (ds2 ++ (ds2.map (properTS ts)).flatten)) :=
      List.Perm.append_left _ ih
    have s2 : (properTS ts c ++ (ds2 ++ (ds2.map (properTS ts)).flatten)).Perm
        ((ds2 ++ (ds2.map (properTS ts)).flatten) ++ properTS ts c) :=
      List.perm_append_comm
    have s3 : ((ds2 ++ (ds2.map (properTS ts)).flatten) ++ properTS ts c)
        = ds2 ++ ((ds2.map (properTS ts)).flatten ++ properTS ts c) := by
      rw [List.append_assoc]
    have s4 : (ds2 ++ ((ds2.map (properTS ts)).flatten ++ properTS ts c)).Perm
        (ds2 ++ (properTS ts c ++ (ds2.map (properTS ts)).flatten)) :=
      List.Perm.append_left _ List.perm_append_comm
    exact s1.trans ((s3 ▸ s2).trans s4)

lemma subtreeTS_ne_nil {ts : TreeStateM} (h : TSHyps ts) (id : Nat) :
    subtreeTS ts id ≠ [] := by
  rw [subtreeTS_unfold h]
  simp

lemma fipLoop_spec {ts : TreeStateM} (h : TSHyps ts) :
    ∀ (fuel : Nat) (stack : List Nat) (best : Nat),
      ((stack.map (subtreeTS ts)).flatten).length ≤ fuel →
      fipLoop ts fuel stack best
        = some (max best (natSup (((stack.map (properTS ts)).flatten).map (posOf ts)))) := by
  intro fuel
  induction fuel with
  | zero =>
    intro stack best hlen
    cases stack with
    | nil => simp [fipLoop, natSup_nil]
    | cons cur rest =>
      exfalso
      rw [List.map_cons, List.flatten_cons, List.length_append] at hlen
      have hpos : 0 < (subtreeTS ts cur).length :=
        List.length_pos.mpr (subtreeTS_ne_nil h cur)
      omega
  | succ fuel ih =>
    intro stack best hlen
    cases stack with
    | nil => simp [fipLoop, natSup_nil]
    | cons cur rest =>
      have hfilter : (childrenOfTS ts cur).filter (fun d => (alookup ts.index_to_position d).isSome)
          = childrenOfTS ts cur :=
        List.filter_eq_self.mpr (fun c hc => ts_pres h cur c hc)
      have hstep : fipLoop ts (fuel + 1) (cur :: rest) best
          = fipLoop ts fuel ((childrenOfTS ts cur).reverse ++ rest)
              ((childrenOfTS ts cur).foldl
                (fun b d => max b ((alookup ts.index_to_position d).getD 0)) best) := by
        show fipLoop ts fuel
            (((childrenOfTS ts cur).filter (fun d => (alookup ts.index_to_position d).isSome)).reverse ++ rest)
            (((childrenOfTS ts cur).filter (fun d => (alookup ts.index_to_position d).isSome)).foldl
              (fun b d => max b ((alookup ts.index_to_position d).getD 0)) best) = _
        rw [hfilter]
      have hpermstack : ((((childrenOfTS ts cur).reverse ++ rest).map (subtreeTS ts)).flatten).Perm
          ((((childrenOfTS ts cur) ++ rest).map (subtreeTS ts)).flatten) :=
        List.Perm.flatten (List.Perm.map _ (List.Perm.append_right rest (List.reverse_perm _)))
      have hlen2 : ((((childrenOfTS ts cur).reverse ++ rest).map (subtreeTS ts)).flatten).length ≤ fuel := by
        rw [hpermstack.length_eq]
        rw [List.map_append, List.flatten_append, List.length_append]
        rw [List.map_cons, List.flatten_cons, List.length_append] at hlen
        rw [subtreeTS_unfold h cur] at hlen
        rw [List.length_cons] at hlen
        have hproper : (properTS ts cur).length
            = (((childrenOfTS ts cur).map (subtreeTS ts)).flatten).length := rfl
        omega
      rw [hstep, ih _ _ hlen2]
      congr 1
      have hfold : (childrenOfTS ts cur).foldl
          (fun b d => max b ((alookup ts.index_to_position d).getD 0)) best
          = max best (natSup ((childrenOfTS ts cur).map (posOf ts))) := by
        rw [show (fun (b : Nat) (d : Nat) => max b ((alookup ts.index_to_position d).getD 0))
            = (fun (b : Nat) (d : Nat) => max b (posOf ts d)) from rfl]
        exact foldl_max_natSup (posOf ts) (childrenOfTS ts cur) best
      rw [hfold]
      have e1 : natSup (((((childrenOfTS ts cur).reverse ++ rest).map (properTS ts)).flatten).map (posOf ts))
          = max (natSup ((((childrenOfTS ts cur).map (properTS ts)).flatten).map (posOf ts)))
              (natSup (((rest.map (properTS ts)).flatten).map (posOf ts))) := by
        rw [List.map_append, List.flatten_append, List.map_append, natSup_append]
        congr 1
        apply natSup_perm
        exact List.Perm.map _ (List.Perm.flatten (List.Perm.map _ (List.reverse_perm _)))
      have e2 : natSup ((((cur :: rest).map (properTS ts)).flatten).map (posOf ts))
          = max (natSup ((properTS ts cur).map (posOf ts)))
              (natSup (((rest.map (properTS ts)).flatten).map (posOf ts))) := by
        rw [List.map_cons, List.flatten_cons, List.map_append, natSup_append]
      have e3 : natSup ((properTS ts cur).map (posOf ts))
          = max (natSup ((childrenOfTS ts cur).map (posOf ts)))
              (natSup ((((childrenOfTS ts cur).map (properTS ts)).flatten).map (posOf ts))) := by
        have hperm := flatten_map_subtreeTS_perm h (childrenOfTS ts cur)
        have : natSup ((properTS ts cur).map (posOf ts))
            = natSup (((childrenOfTS ts cur) ++ ((childrenOfTS ts cur).map (properTS ts)).flatten).map (posOf ts)) :=
          natSup_perm (List.Perm.map _ hperm)
        rw [this, List.map_append, natSup_append]
      rw [e1, e2, e3]
      omega

lemma map_posOf_range {ts : TreeStateM}
    (hpos : ∀ pr ∈ (ts.items.map PBItem.id).enum, alookup ts.index_to_position pr.2 = some pr.1) :
    ∀ (mid pre post : List Nat), ts.items.map PBItem.id = pre ++ (mid ++ post) →
      mid.map (posOf ts) = List.range' pre.length mid.length := by
  intro mid
  induction mid with
  | nil =>
    intro pre post heq
    simp
  | cons m mid2 ih =>
    intro pre post heq
    have hget : (ts.items.map PBItem.id)[pre.length]? = some m := by
      rw [heq]
      rw [List.getElem?_append_right (le_refl pre.length)]
      simp
    have hmem : (pre.length, m) ∈ (ts.items.map PBItem.id).enum :=
      List.mem_enum_iff_getElem?.mpr hget
    have hpm : posOf ts m = pre.length := by
      rw [posOf_def, hpos _ hmem]
      rfl
    have heq2 : ts.items.map PBItem.id = (pre ++ [m]) ++ (mid2 ++ post) := by
      rw [heq]
      simp [List.append_assoc]
    have ihm := ih (pre ++ [m]) post heq2
    rw [List.map_cons, hpm, ihm]
    simp [List.range'_succ]

lemma find_insert_spec {ts : TreeStateM} (h : TSHyps ts) (itm : PBItem) (p i : Nat)
    (hpar : itm.parent = some p) (hpmem : p ∈ ts.items.map PBItem.id)
    (hpos : alookup ts.index_to_position p = some i) :
    find_insert_position ts itm
      = some (i + 1 + ((childrenOfTS ts p).map (fun c => (subtreeTS ts c).length)).sum) := by
  have hmono := ts_mono h
  have hlt := ts_lt h
  have hfun : subtreeTS ts = subtreeF (childrenOfTS ts) (ts.items.length + 1) := rfl
  have hpF : p ∈ (((ts.items.filter (fun it => it.parent = none)).map PBItem.id).map (subtreeTS ts)).flatten := by
    rw [← h.1]
    exact hpmem
  rw [hfun] at hpF
  rcases flat_infix (childrenOfTS ts) ts.items.length hmono hlt _ hpF with ⟨pre, post, hdecomp⟩
  have hF : ts.items.map PBItem.id = pre ++ (subtreeTS ts p ++ post) := by
    rw [h.1, hfun, hdecomp, List.append_assoc]
  have hrangeP := map_posOf_range h.2.1 (subtreeTS ts p) pre post hF
  have hsubP : subtreeTS ts p = p :: properTS ts p := subtreeTS_unfold h p
  have hposP : posOf ts p = pre.length := by
    rw [hsubP, List.map_cons, List.length_cons, List.range'_succ] at hrangeP
    exact ((List.cons.injEq _ _ _ _).mp hrangeP).1
  have hieq : i = pre.length := by
    have hpi : posOf ts p = i := by rw [posOf_def, hpos]; rfl
    omega
  cases hbuck : alookup ts.parent_to_children p with
  | none =>
    have hch : childrenOfTS ts p = [] := by
      unfold childrenOfTS
      rw [hbuck]
      rfl
    simp only [find_insert_position, hpar, hpos, hbuck, hch]
    simp
  | some children =>
    have hch : childrenOfTS ts p = children := by
      unfold childrenOfTS
      rw [hbuck]
      rfl
    by_cases hemp : children.isEmpty
    · have hnil : children = [] := by
        cases children with
        | nil => rfl
        | cons a l => simp [List.isEmpty] at hemp
      simp only [find_insert_position, hpar, hpos, hbuck, if_pos hemp, hch, hnil]
      simp
    · have hne : children ≠ [] := by
        cases children with
        | nil => simp [List.isEmpty] at hemp
        | cons a l => simp
      have hlast : children.getLast? = some (children.getLast hne) :=
        List.getLast?_eq_getLast children hne
      have hlcmem : children.getLast hne ∈ childrenOfTS ts p := by
        rw [hch]
        exact List.getLast_mem hne
      rcases ts_pos_of_mem h (ts_bucket_mem h p _ hlcmem) with ⟨j, hj⟩
      simp only [find_insert_position, hpar, hpos, hbuck, if_neg hemp, hlast, hj]
      have hfuel : (([children.getLast hne].map (subtreeTS ts)).flatten).length
          ≤ (subtreeTS ts (children.getLast hne)).length + 1 := by
        simp
      have hloop := fipLoop_spec h ((subtreeTS ts (children.getLast hne)).length + 1)
        [children.getLast hne] j hfuel
      rw [hloop]
      have hsplit : children = children.dropLast ++ [children.getLast hne] :=
        (List.dropLast_append_getLast hne).symm
      have hflatch : ((children.map (subtreeTS ts)).flatten)
          = ((children.dropLast.map (subtreeTS ts)).flatten)
            ++ subtreeTS ts (children.getLast hne) := by
        conv_lhs => rw [hsplit]
        rw [List.map_append, List.flatten_append]
        simp
      have hF2 : ts.items.map PBItem.id
          = (pre ++ p :: ((children.dropLast.map (subtreeTS ts)).flatten))
            ++ (subtreeTS ts (children.getLast hne) ++ post) := by
        rw [hF, hsubP]
        unfold properTS
        rw [hch, hflatch]
        simp [List.append_assoc]
      have hrangeL := map_posOf_range h.2.1 (subtreeTS ts (children.getLast hne))
        (pre ++ p :: ((children.dropLast.map (subtreeTS ts)).flatten)) post
        (by rw [hF2, List.append_assoc])
      have hsubL : subtreeTS ts (children.getLast hne)
          = children.getLast hne :: properTS ts (children.getLast hne) :=
        subtreeTS_unfold h _
      have hpre2len : (pre ++ p :: ((children.dropLast.map (subtreeTS ts)).flatten)).length
          = pre.length + 1 + ((children.dropLast.map (subtreeTS ts)).flatten).length := by
        rw [List.length_append, List.length_cons]
        omega
      have hlenL : (subtreeTS ts (children.getLast hne)).length
          = (properTS ts (children.getLast hne)).length + 1 := by
        rw [hsubL]
        rfl
      have hrangeL2 := hrangeL
      rw [hsubL, List.map_cons, List.length_cons, List.range'_succ] at hrangeL2
      have hposL : posOf ts (children.getLast hne)
          = (pre ++ p :: ((children.dropLast.map (subtreeTS ts)).flatten)).length :=
        ((List.cons.injEq _ _ _ _).mp hrangeL2).1
      have hrangeProp : (properTS ts (children.getLast hne)).map (posOf ts)
          = List.range' ((pre ++ p :: ((children.dropLast.map (subtreeTS ts)).flatten)).length + 1)
              (properTS ts (children.getLast hne)).length :=
        ((List.cons.injEq _ _ _ _).mp hrangeL2).2
      have hjval : j = posOf ts (children.getLast hne) := by
        rw [posOf_def, hj]
        rfl
      have hmax : max j (natSup ((([children.getLast hne].map (properTS ts)).flatten).map (posOf ts)))
          = pre.length + 1 + ((children.dropLast.map (subtreeTS ts)).flatten).length
            + (properTS ts (children.getLast hne)).length := by
        have hsingle : (([children.getLast hne].map (properTS ts)).flatten)
            = properTS ts (children.getLast hne) := by simp
        rw [hsingle, hrangeProp]
        cases hK : (properTS ts (children.getLast hne)).length with
        | zero =>
          rw [show List.range' ((pre ++ p :: ((children.dropLast.map (subtreeTS ts)).flatten)).length + 1) 0 = [] from rfl]
          rw [natSup_nil, hjval, hposL, hpre2len]
          omega
        | succ K =>
          rw [natSup_range', hjval, hposL, hpre2len]
          omega
      have hsum : ((childrenOfTS ts p).map (fun c => (subtreeTS ts c).length)).sum
          = ((children.dropLast.map (subtreeTS ts)).flatten).length
            + (properTS ts (children.getLast hne)).length + 1 := by
        rw [hch]
        have h1 : ((children.map (subtreeTS ts)).flatten).length
            = ((children.map (subtreeTS ts)).map List.length).sum := List.length_flatten _
        have h2 : ((children.map (subtreeTS ts)).map List.length)
            = children.map (fun c => (subtreeTS ts c).length) := by
          rw [List.map_map]
          rfl
        rw [h2] at h1
        have h3 : ((children.map (subtreeTS ts)).flatten).length
            = ((children.dropLast.map (subtreeTS ts)).flatten).length
              + (subtreeTS ts (children.getLast hne)).length := by
          rw [hflatch, List.length_append]
        omega
      rw [Option.map_some', hmax]
      rw [show (i + 1 + ((childrenOfTS ts p).map (fun c => (subtreeTS ts c).length)).sum)
          = pre.length + 1 + ((children.dropLast.map (subtreeTS ts)).flatten).length
            + (properTS ts (children.getLast hne)).length + 1 from by omega]

/-- C1 (amended): the two prospective insertion-position flavors differ.
`IncrementalTree::calculate_insert_position` with an existing parent `p`
returns the SIZE of `p`'s subtree — 1 (for `p` itself) plus the number of
existing descendants of all of `p`'s existing children — independent of
`p`'s own position in the flattening, and with no parent it returns the
number of root entries (append at the very end of all roots).
`TreeState::find_insert_position` on a consistent display state returns
`p`'s 0-based position in the depth-first flattening, plus 1, plus the
number of existing descendants of all of `p`'s existing children, as the
claim states; with no parent, or a parent with no recorded position, it
returns the current total item count.  The two agree exactly when `p`'s position is 0, as in the
spec's example: for root `r` with child `c1` which has child `gc1`, both
flavors place a new sibling `c2` of `c1` under `r` at position 3. -/
theorem c1_insertion_position_formulas
    (style : StyleConfig) (ops : List Op) (p : Nat)
    (hn : NoSelfLoop (buildOps style ops))
    (ts : TreeStateM) (h : TSHyps ts) (itm : PBItem) (q i : Nat)
    (hpar : itm.parent = some q) (hq : q ∈ ts.items.map PBItem.id)
    (hi : alookup ts.index_to_position q = some i) :
    calculate_insert_position (buildOps style ops) (some p)
      = some (1 + ((childrenOf (buildOps style ops) p).map
          (fun c => (subtreeIds (buildOps style ops) c).length)).sum) ∧
    calculate_insert_position (buildOps style ops) none
      = some (buildOps style ops).root_ids.length ∧
    find_insert_position ts itm
      = some (i + 1 + ((childrenOfTS ts q).map (fun c => (subtreeTS ts c).length)).sum) ∧
    (∀ (ts2 : TreeStateM) (itm2 : PBItem), itm2.parent = none →
      find_insert_position ts2 itm2 = some ts2.items.length) ∧
    (∀ (ts2 : TreeStateM) (itm2 : PBItem) (q2 : Nat), itm2.parent = some q2 →
      alookup ts2.index_to_position q2 = none →
      find_insert_position ts2 itm2 = some ts2.items.length) ∧
    calculate_insert_position exRCG (some 0) = some 3 ∧
    find_insert_position exTS ⟨3, some 0⟩ = some 3 := by
  refine ⟨?_, rfl, find_insert_spec h itm q i hpar hq hi, ?_, ?_, by decide, by decide⟩
  · rw [calc_insert_subtree_size (WF0_buildOps style ops) hn,
      subtree_size_one_plus_descendants (WF0_buildOps style ops) hn]
  · intro ts2 itm2 hp
    simp only [find_insert_position, hp]
  · intro ts2 itm2 q2 hp hq2
    simp only [find_insert_position, hp, hq2]

/-- C1 witness: the theorem instantiated at the spec's `r`/`c1`/`gc1`
example, on both the incremental model and the progress-bar display
state. -/
theorem c1_witness :
    NoSelfLoop exRCG ∧ TSHyps exTS ∧
    (calculate_insert_position exRCG (some 0)
        = some (1 + ((childrenOf exRCG 0).map
            (fun c => (subtreeIds exRCG c).length)).sum) ∧
      calculate_insert_position exRCG none = some exRCG.root_ids.length ∧
      find_insert_position exTS ⟨3, some 0⟩
        = some (0 + 1 + ((childrenOfTS exTS 0).map
            (fun c => (subtreeTS exTS c).length)).sum) ∧
      find_insert_position exTS ⟨3, none⟩ = some exTS.items.length ∧
      find_insert_position exTS ⟨3, some 9⟩ = some exTS.items.length ∧
      calculate_insert_position exRCG (some 0) = some 3 ∧
      find_insert_position exTS ⟨3, some 0⟩ = some 3) := by
  have hmain := c1_insertion_position_formulas StyleConfig.unicode
    [Op.node ("r") none, Op.node ("c1") (some 0), Op.leaf ("gc1") (some 1)]
    0 (by decide) exTS (by decide) ⟨3, some 0⟩ 0 0 rfl (by decide) (by decide)
  exact ⟨by decide, by decide, hmain.1, hmain.2.1, hmain.2.2.1,
    hmain.2.2.2.1 exTS ⟨3, none⟩ rfl,
    hmain.2.2.2.2.1 exTS ⟨3, some 9⟩ 9 rfl (by decide),
    hmain.2.2.2.2.2.1, hmain.2.2.2.2.2.2⟩

end Treelog
